import Mathlib

/-!
# Sentence retrieval by TF-IDF and cosine similarity

A shallow embedding of `main.go`: the segmenter (`splitIntoSentences`), the
normaliser (`preprocess`), the vectoriser (`tfidf`, `normalize`) and the ranker
(`cosine`, the query path and the threshold test of `main`).

Modelling conventions.

* A Go `string` is a list of Unicode code points (`GoString`); `len` of a string
  is its UTF-8 byte length (`byteLen`).
* `float64` arithmetic is taken over a linearly ordered field `α`; `math.Log`
  and `math.Sqrt` are the parameters `log` and `sqrt`.  The theorems
  instantiate them with `ℝ`, `Real.log` and `Real.sqrt`.
* The definitions whose names end in `64` read the same lines with every
  operation rounded to float64: values are rationals, each result is rounded to
  the nearest number with 53 significant bits, ties to even.
* A slice access out of range is a run-time panic: the operation returns `none`.
* `map[string]int` is an association list in insertion order, `map[int]int` is
  a total function (a missing key reads as `0`).
* The Unicode case table used by `strings.ToLower` beyond ASCII and the
  Snowball stemmer are parameters (`tbl`, `stem`).
-/

namespace QA

/-- A Go string, as the list of its code points. -/
abbrev GoString := List Char

/-- The `len` of a Go string: the number of bytes of its UTF-8 encoding. -/
def byteLen (s : GoString) : Nat := (s.map Char.utf8Size).sum

/-! ## Library functions of the Go runtime used by the program -/

/-- The predicate `unicode.IsSpace`. -/
def isSpace (c : Char) : Bool :=
  let n := c.toNat
  (9 ≤ n && n ≤ 13) || n == 32 || n == 0x85 || n == 0xA0 || n == 0x1680 ||
  (0x2000 ≤ n && n ≤ 0x200A) || n == 0x2028 || n == 0x2029 || n == 0x202F ||
  n == 0x205F || n == 0x3000

/-- The function `strings.TrimSpace`: leading and trailing white space removed. -/
def trimSpace (s : GoString) : GoString :=
  (s.dropWhile isSpace).rdropWhile isSpace

/-- The function `unicode.ToLower`: ASCII is decided here, every other code
point is looked up in the Unicode case table `tbl`. -/
def toLowerRune (tbl : Char → Char) (c : Char) : Char :=
  if c.toNat ≤ 127 then
    (if 65 ≤ c.toNat ∧ c.toNat ≤ 90 then Char.ofNat (c.toNat + 32) else c)
  else tbl c

/-- The function `strings.ToLower`. -/
def toLower (tbl : Char → Char) (s : GoString) : GoString :=
  s.map (toLowerRune tbl)

/-- The function `strings.Split(text, ".")`. -/
def splitDot (text : GoString) : List GoString := text.splitOn '.'

/-- The expression `prev[strings.LastIndex(prev, " ")+1:]`: what follows the
last space of `prev`, all of `prev` when it has no space. -/
def afterLastSpace (prev : GoString) : GoString :=
  prev.rtakeWhile (fun c => c != ' ')

/-- The scan behind `strings.LastIndex(s, " ")`: `pos` is the current position
and `last` the position of the last space seen so far, `-1` when there is none.
Positions count code points; the slice taken at the result starts right after a
one-byte space, so it is the same text as the byte slice. -/
def lastIndexFrom : List Char → Int → Int → Int
  | [], _, last => last
  | c :: cs, pos, last => lastIndexFrom cs (pos + 1) (if c = ' ' then pos else last)

/-- The call `strings.LastIndex(s, " ")`. -/
def lastIndexSpace (s : GoString) : Int := lastIndexFrom s 0 (-1)

/-- The slice expression `s[n:]`; it panics unless `0 ≤ n ≤ len(s)`. -/
def sliceFrom (s : GoString) (n : Int) : Option GoString :=
  if 0 ≤ n ∧ n ≤ s.length then some (s.drop n.toNat) else none

/-- The function `strings.FieldsFunc`: the maximal non-empty runs of code points
that do not satisfy `f`. -/
def fieldsFunc (f : Char → Bool) (s : GoString) : List GoString :=
  (s.splitOnP f).filter (fun w => !w.isEmpty)

/-- The function `strings.Join(units, ". ")`. -/
def joinDot (units : List GoString) : GoString :=
  ['.', ' '].intercalate units

/-! ## Segmenter -/

/-- The map `abbreviations` of `splitIntoSentences`, as the list of its keys. -/
def abbreviations : List GoString :=
  ["art.".toList, "arts.".toList, "arts".toList, "etc.".toList, "sr.".toList,
   "sra.".toList, "dr.".toList]

/-- The test of line 134: `prev` is non-empty and its last word, lowercased and
followed by a period, is a key of `abbreviations`. -/
def endsWithAbbreviation (tbl : Char → Char) (prev : GoString) : Bool :=
  !prev.isEmpty && abbreviations.contains (toLower tbl (afterLastSpace prev) ++ ['.'])

/-- One iteration of the loop of `splitIntoSentences`, at index `i` on the raw
fragment `r`: with `i > 0`, a last sentence and the test of line 134 the
fragment is merged into that sentence, otherwise it is appended. -/
def splitStep (tbl : Char → Char) (sentences : List GoString) (i : Nat)
    (r : GoString) : List GoString :=
  let s := trimSpace r
  match sentences.getLast? with
  | some last =>
    if 0 < i ∧ endsWithAbbreviation tbl (trimSpace last) = true then
      sentences.dropLast ++ [last ++ ['.', ' '] ++ s]
    else sentences ++ [s]
  | none => sentences ++ [s]

/-- The loop of `splitIntoSentences` from index `i` on. -/
def splitLoop (tbl : Char → Char) : List GoString → Nat → List GoString → List GoString
  | sentences, _, [] => sentences
  | sentences, i, r :: raw => splitLoop tbl (splitStep tbl sentences i r) (i + 1) raw

/-- The function `splitIntoSentences`. -/
def splitIntoSentences (tbl : Char → Char) (text : GoString) : List GoString :=
  splitLoop tbl [] 0 (splitDot text)

/-- The loop of lines 152-157 of `main`: a unit is kept, trimmed, when the `len`
of its trimmed text exceeds 20. -/
def filterUnits (sentences : List GoString) : List GoString :=
  (sentences.map trimSpace).filter (fun s => 20 < byteLen s)

/-! ## Normaliser -/

/-- The map `stopwords`, as the list of its keys. -/
def stopwords : List GoString :=
  ["el".toList, "la".toList, "de".toList, "y".toList, "que".toList, "en".toList,
   "a".toList, "los".toList, "se".toList, "del".toList, "las".toList, "por".toList,
   "un".toList, "para".toList, "con".toList, "no".toList, "una".toList]

/-- The separator predicate handed to `strings.FieldsFunc` in `preprocess`: the
code points outside `a`-`z`, `á`, `é`, `í`, `ó`, `ú`, `ñ`. -/
def notLetter (r : Char) : Bool :=
  !((decide ('a' ≤ r) && decide (r ≤ 'z')) || r == 'á' || r == 'é' || r == 'í' ||
    r == 'ó' || r == 'ú' || r == 'ñ')

/-- The call `strings.ReplaceAll(text, "\n", " ")`. -/
def replaceNewlines (s : GoString) : GoString :=
  s.map (fun c => if c = '\n' then ' ' else c)

/-- The token list of `preprocess` before stopword removal and stemming. -/
def tokenize (tbl : Char → Char) (text : GoString) : List GoString :=
  fieldsFunc notLetter (replaceNewlines (toLower tbl text))

/-- The function `preprocess`; `stem w` is the first result of
`snowball.Stem(w, "spanish", true)`. -/
def preprocess (tbl : Char → Char) (stem : GoString → GoString) (text : GoString) :
    List GoString :=
  ((tokenize tbl text).filter (fun word => !stopwords.contains word)).map stem

/-! ## Vectoriser -/

/-- The map `vocab`, as the list of its entries in insertion order. -/
abbrev Vocab := List (GoString × Nat)

/-- Lines 63-65: `word` gets the index `len(vocab)` unless it has one. -/
def vocabInsert (vocab : Vocab) (word : GoString) : Vocab :=
  if (vocab.lookup word).isSome then vocab else vocab ++ [(word, vocab.length)]

/-- The first loop of `tfidf` (lines 60-67). -/
def buildVocab (sentences : List (List GoString)) : Vocab :=
  sentences.foldl (fun vocab sent => sent.foldl vocabInsert vocab) []

/-- The read `vocab[word]`: a missing key reads as `0`. -/
def vocabIndex (vocab : Vocab) (word : GoString) : Nat :=
  (vocab.lookup word).getD 0

/-- The statement `vec[idx]++`; out of range it panics. -/
def bump {α : Type} [LinearOrderedField α] (vec : List α) (idx : Nat) : Option (List α) :=
  match vec[idx]? with
  | some x => some (vec.set idx (x + 1))
  | none => none

/-- Lines 77-79: one word of a unit is counted and its index recorded in
`termSeen` (the list of the keys of that map). -/
def countStep {α : Type} [LinearOrderedField α] (vocab : Vocab) (st : List α × List Nat)
    (word : GoString) : Option (List α × List Nat) :=
  let idx := vocabIndex vocab word
  match bump st.1 idx with
  | some vec => some (vec, if st.2.contains idx then st.2 else st.2 ++ [idx])
  | none => none

/-- Lines 74-80: the raw count vector of a unit and its `termSeen`. -/
def countUnit {α : Type} [LinearOrderedField α] (vocab : Vocab) (sent : List GoString) :
    Option (List α × List Nat) :=
  sent.foldlM (countStep vocab) (List.replicate vocab.length 0, [])

/-- The statement `df[idx]++`. -/
def dfIncr (df : Nat → Nat) (idx : Nat) : Nat → Nat :=
  fun j => if j = idx then df j + 1 else df j

/-- One iteration of the second loop of `tfidf` (lines 73-85): the count vector
is stored and `df[idx]++` runs once for every key of `termSeen`. -/
def indexStep {α : Type} [LinearOrderedField α] (vocab : Vocab)
    (st : List (List α) × (Nat → Nat)) (sent : List GoString) :
    Option (List (List α) × (Nat → Nat)) :=
  match countUnit vocab sent with
  | some (vec, termSeen) => some (st.1 ++ [vec], termSeen.foldl dfIncr st.2)
  | none => none

/-- The factor `math.Log(float64(docCount) / float64(1+df[j]))`. -/
def idf {α : Type} [LinearOrderedField α] (log : α → α) (docCount : Nat) (df : Nat → Nat)
    (j : Nat) : α :=
  log ((docCount : α) / ((1 + df j : Nat) : α))

/-- Lines 88-92, from slot `j` on: a positive slot is multiplied by its factor. -/
def weightFrom {α : Type} [LinearOrderedField α] (log : α → α) (docCount : Nat)
    (df : Nat → Nat) : Nat → List α → List α
  | _, [] => []
  | j, x :: xs =>
    (if 0 < x then x * idf log docCount df j else x) :: weightFrom log docCount df (j + 1) xs

/-- The sum of squares accumulated by the first loop of `normalize`. -/
def sumSquares {α : Type} [LinearOrderedField α] (vec : List α) : α :=
  vec.foldl (fun norm v => norm + v * v) 0

/-- The function `normalize`, returning the slice it leaves behind. -/
def normalize {α : Type} [LinearOrderedField α] (sqrt : α → α) (vec : List α) : List α :=
  let norm := sqrt (sumSquares vec)
  if norm = 0 then vec else vec.map (fun v => v / norm)

/-- The function `tfidf`. -/
def tfidf {α : Type} [LinearOrderedField α] (log sqrt : α → α)
    (sentences : List (List GoString)) : Option (List (List α) × Vocab × (Nat → Nat)) :=
  let vocab := buildVocab sentences
  let docCount := sentences.length
  match sentences.foldlM (indexStep vocab) ([], fun _ => 0) with
  | some (vectors, df) =>
    some (vectors.map (fun vec => normalize sqrt (weightFrom log docCount df 0 vec)), vocab, df)
  | none => none

/-! ## Ranker -/

/-- The loop of `cosine`: `a` and `b` are walked in step, `b[i]` panics when
`b` is the shorter one. The state is `(sumProd, sumA, sumB)`. -/
def cosineLoop {α : Type} [LinearOrderedField α] : List α → List α → α × α × α → Option (α × α × α)
  | [], _, acc => some acc
  | _ :: _, [], _ => none
  | x :: a, y :: b, (sumProd, sumA, sumB) =>
    cosineLoop a b (sumProd + x * y, sumA + x * x, sumB + y * y)

/-- The function `cosine`. -/
def cosine {α : Type} [LinearOrderedField α] (sqrt : α → α) (a b : List α) : Option α :=
  match cosineLoop a b (0, 0, 0) with
  | some (sumProd, sumA, sumB) =>
    if sumA = 0 ∨ sumB = 0 then some 0 else some (sumProd / (sqrt sumA * sqrt sumB))
  | none => none

/-- Lines 173-175: a query word with a vocabulary index is counted, any other
word is skipped. -/
def queryCount {α : Type} [LinearOrderedField α] (vocab : Vocab) (qVec : List α)
    (word : GoString) : Option (List α) :=
  match vocab.lookup word with
  | some idx => bump qVec idx
  | none => some qVec

/-- Lines 180-182, for one entry of `vocab`. -/
def queryScale {α : Type} [LinearOrderedField α] (log : α → α) (totalDocs : Nat)
    (df : Nat → Nat) (qVec : List α) (entry : GoString × Nat) : Option (List α) :=
  match qVec[entry.2]? with
  | some x => some (if 0 < x then qVec.set entry.2 (x * idf log totalDocs df entry.2) else qVec)
  | none => none

/-- Lines 171-184 of `main`: the query vector of the token list `tokens`, for an
index of `totalDocs` units. The loop of line 179 ranges over the entries of
`vocab`; each iteration reads and writes the slot of its own entry only. -/
def queryVector {α : Type} [LinearOrderedField α] (log sqrt : α → α) (vocab : Vocab)
    (df : Nat → Nat) (totalDocs : Nat) (tokens : List GoString) : Option (List α) :=
  match tokens.foldlM (queryCount vocab) (List.replicate vocab.length 0) with
  | some counts =>
    match vocab.foldlM (queryScale log totalDocs df) counts with
    | some qVec => some (normalize sqrt qVec)
    | none => none
  | none => none

/-- The type `result` of `main`. -/
structure Result (α : Type) where
  /-- The cosine score. -/
  Score : α
  /-- The position of the unit. -/
  Index : Nat
  /-- The text of the unit. -/
  Text : GoString

/-- Lines 192-194 of `main`, from unit `i` on. -/
def rankFrom {α : Type} [LinearOrderedField α] (sqrt : α → α) (qVec : List α)
    (filtered : List GoString) : Nat → List (List α) → Option (List (Result α))
  | _, [] => some []
  | i, v :: vectors =>
    match cosine sqrt v qVec, filtered[i]?, rankFrom sqrt qVec filtered (i + 1) vectors with
    | some score, some text, some rest => some (⟨score, i, text⟩ :: rest)
    | _, _, _ => none

/-- Lines 191-194 of `main`: one result per document vector. -/
def rank {α : Type} [LinearOrderedField α] (sqrt : α → α) (vectors : List (List α))
    (qVec : List α) (filtered : List GoString) : Option (List (Result α)) :=
  rankFrom sqrt qVec filtered 0 vectors

/-- Line 201 of `main`, on the sorted results: the entry that is printed, if any. -/
def report {α : Type} [LinearOrderedField α] (results : List (Result α)) : Option (Result α) :=
  match results with
  | r :: _ => if r.Score > 0.2 then some r else none
  | [] => none

/-- Modelled from the spec: the library routine `sort.Slice` is not part of the
repository. One pass of the insertion sort it runs on short slices: the entry
`r` moves left past every entry it is `less` than (line 197: a strictly greater
score), so it lands before the first entry of the sorted part with a smaller
score. -/
def insertByScore {α : Type} [LinearOrderedField α] (r : Result α) :
    List (Result α) → List (Result α)
  | [] => [r]
  | x :: xs => if r.Score > x.Score then r :: x :: xs else x :: insertByScore r xs

/-- Modelled from the spec: the library routine `sort.Slice` is not part of the
repository. The call of lines 196-198 sorts the results by descending score;
this is the insertion sort that `sort.Slice` runs on a slice of at most 12
entries, which keeps entries of equal score in their original order. On longer
slices the library may order equal scores differently (see `SortedByScore`). -/
def sortByScore {α : Type} [LinearOrderedField α] (results : List (Result α)) :
    List (Result α) :=
  results.foldl (fun sorted r => insertByScore r sorted) []

/-! ## The same lines in float64 -/

/-- The number of binary digits of `n`, with `fuel` halvings at most. -/
def bitLenFrom : Nat → Nat → Nat
  | 0, _ => 0
  | fuel + 1, n => if n = 0 then 0 else bitLenFrom fuel (n / 2) + 1

/-- The number of binary digits of `n`. -/
def bitLen (n : Nat) : Nat := bitLenFrom n n

/-- The power `2^e` for an integer exponent. -/
def pow2 (e : Int) : ℚ :=
  if 0 ≤ e then ((2 ^ e.toNat : Nat) : ℚ) else 1 / ((2 ^ (-e).toNat : Nat) : ℚ)

/-- Round-to-nearest-even of the positive rational `n / d` to 53 significant bits. -/
def roundPos (n d : Nat) : ℚ :=
  let e₀ : Int := (bitLen n : Int) - (bitLen d : Int) - 53
  -- `n / d` lies strictly between `2^(e₀+52)` and `2^(e₀+54)`
  let e : Int := if d * 2 ^ (e₀ + 53).toNat ≤ n * 2 ^ (-(e₀ + 53)).toNat then e₀ + 1 else e₀
  let num := n * 2 ^ (-e).toNat
  let den := d * 2 ^ e.toNat
  let m := num / den
  let r := num % den
  let m' := if den < 2 * r ∨ (2 * r = den ∧ m % 2 = 1) then m + 1 else m
  (m' : ℚ) * pow2 e

/-- Rounding of an exact result to float64: round to nearest, ties to even, 53
significant bits. The exponent range is not modelled, so the value is that of
float64 as long as the result is zero or of magnitude between `2^-1022` and
`2^1024`. -/
def round64 (q : ℚ) : ℚ :=
  if q = 0 then 0
  else if 0 < q then roundPos q.num.toNat q.den
  else - roundPos (-q).num.toNat q.den

/-- The float64 sum. -/
def add64 (x y : ℚ) : ℚ := round64 (x + y)

/-- The float64 difference. -/
def sub64 (x y : ℚ) : ℚ := round64 (x - y)

/-- The float64 product. -/
def mul64 (x y : ℚ) : ℚ := round64 (x * y)

/-- The float64 quotient. -/
def div64 (x y : ℚ) : ℚ := round64 (x / y)

/-- The integer square root, bit by bit from bit `b - 1` down. -/
def isqrtFrom (n : Nat) : Nat → Nat → Nat
  | 0, r => r
  | b + 1, r => isqrtFrom n b (if (r + 2 ^ b) * (r + 2 ^ b) ≤ n then r + 2 ^ b else r)

/-- The integer square root of `n`. -/
def isqrt (n : Nat) : Nat := isqrtFrom n (bitLen n) 0

/-- Correctly rounded square root `math.Sqrt` of a non-negative float64. -/
def sqrt64 (x : ℚ) : ℚ :=
  if x ≤ 0 then 0
  else
    let n := x.num.toNat
    let d := x.den
    let p := 55 + bitLen d
    let X := n * 4 ^ p / d
    let s := isqrt X
    let sticky : Bool := decide ((n * 4 ^ p) % d ≠ 0) || decide (s * s ≠ X)
    let drop := bitLen s - 53
    let m := s / 2 ^ drop
    let r := s % 2 ^ drop
    let half := 2 ^ (drop - 1)
    let m' := if half < r ∨ (r = half ∧ (sticky = true ∨ m % 2 = 1)) then m + 1 else m
    (m' : ℚ) * pow2 ((drop : Int) - p)

/-- The finite, normal float64 with the IEEE 754 bit pattern `b`. -/
def ofBits (b : Nat) : ℚ :=
  let v := ((2 ^ 52 + b % 2 ^ 52 : Nat) : ℚ) * pow2 ((b / 2 ^ 52 % 2 ^ 11 : Nat) - 1075)
  if b / 2 ^ 63 = 1 then -v else v

/-- The function `math.Frexp` on a positive float64: `x = f * 2^k`, `1/2 ≤ f < 1`. -/
def frexp (x : ℚ) : ℚ × Int :=
  let k : Int := (bitLen x.num.toNat : Int) - (bitLen x.den : Int)
  let ki := if x < pow2 k then k else k + 1
  (x / pow2 ki, ki)

/-- The constant `Sqrt2/2` of package `math`, as a float64. -/
def sqrt2Half : ℚ := ofBits 0x3FE6A09E667F3BCD

/-- The function `math.Log` on a positive float64: the portable implementation
`log` of package `math`, after FreeBSD's `e_log.c`, with its constants `L1` to
`L7`, `Ln2Hi` and `Ln2Lo` given by their bit patterns. -/
def log64 (x : ℚ) : ℚ :=
  let fk := frexp x
  let fk := if fk.1 < sqrt2Half then (mul64 fk.1 2, fk.2 - 1) else fk
  let f := sub64 fk.1 1
  let k : ℚ := (fk.2 : ℚ)
  let s := div64 f (add64 2 f)
  let s2 := mul64 s s
  let s4 := mul64 s2 s2
  let t1 := mul64 s2 (add64 (ofBits 0x3FE5555555555593) (mul64 s4 (add64 (ofBits 0x3FD2492494229359)
    (mul64 s4 (add64 (ofBits 0x3FC7466496CB03DE) (mul64 s4 (ofBits 0x3FC2F112DF3E5244)))))))
  let t2 := mul64 s4 (add64 (ofBits 0x3FD999999997FA04) (mul64 s4 (add64 (ofBits 0x3FCC71C51D8E78AF)
    (mul64 s4 (ofBits 0x3FC39A09D078C69F)))))
  let R := add64 t1 t2
  let hfsq := mul64 (mul64 (1 / 2) f) f
  sub64 (mul64 k (ofBits 0x3fe62e42fee00000))
    (sub64 (sub64 hfsq (add64 (mul64 s (add64 hfsq R)) (mul64 k (ofBits 0x3dea39ef35793c76)))) f)

/-- Lines 88-92 of `tfidf` in float64, from slot `j` on. -/
def weightFrom64 (docCount : Nat) (df : Nat → Nat) : Nat → List ℚ → List ℚ
  | _, [] => []
  | j, x :: xs =>
    (if 0 < x then mul64 x (log64 (div64 (docCount : ℚ) ((1 + df j : Nat) : ℚ))) else x)
      :: weightFrom64 docCount df (j + 1) xs

/-- The first loop of `normalize` in float64. -/
def sumSquares64 (vec : List ℚ) : ℚ :=
  vec.foldl (fun norm v => add64 norm (mul64 v v)) 0

/-- The function `normalize` in float64. -/
def normalize64 (vec : List ℚ) : List ℚ :=
  let norm := sqrt64 (sumSquares64 vec)
  if norm = 0 then vec else vec.map (fun v => div64 v norm)

/-- The function `tfidf` in float64; the counts of the second loop are exact. -/
def tfidf64 (sentences : List (List GoString)) : Option (List (List ℚ) × Vocab × (Nat → Nat)) :=
  let vocab := buildVocab sentences
  let docCount := sentences.length
  match sentences.foldlM (indexStep vocab) ([], fun _ => 0) with
  | some (vectors, df) =>
    some (vectors.map (fun vec => normalize64 (weightFrom64 docCount df 0 vec)), vocab, df)
  | none => none

/-- The loop of `cosine` in float64. -/
def cosineLoop64 : List ℚ → List ℚ → ℚ × ℚ × ℚ → Option (ℚ × ℚ × ℚ)
  | [], _, acc => some acc
  | _ :: _, [], _ => none
  | x :: a, y :: b, (sumProd, sumA, sumB) =>
    cosineLoop64 a b (add64 sumProd (mul64 x y), add64 sumA (mul64 x x), add64 sumB (mul64 y y))

/-- The function `cosine` in float64. -/
def cosine64 (a b : List ℚ) : Option ℚ :=
  match cosineLoop64 a b (0, 0, 0) with
  | some (sumProd, sumA, sumB) =>
    if sumA = 0 ∨ sumB = 0 then some 0 else some (div64 sumProd (mul64 (sqrt64 sumA) (sqrt64 sumB)))
  | none => none

/-- Lines 180-182 of `main` in float64, for one entry of `vocab`. -/
def queryScale64 (totalDocs : Nat) (df : Nat → Nat) (qVec : List ℚ) (entry : GoString × Nat) :
    Option (List ℚ) :=
  match qVec[entry.2]? with
  | some x =>
    some (if 0 < x then
      qVec.set entry.2 (mul64 x (log64 (div64 (totalDocs : ℚ) ((1 + df entry.2 : Nat) : ℚ))))
    else qVec)
  | none => none

/-- Lines 171-184 of `main` in float64. -/
def queryVector64 (vocab : Vocab) (df : Nat → Nat) (totalDocs : Nat) (tokens : List GoString) :
    Option (List ℚ) :=
  match tokens.foldlM (queryCount vocab) (List.replicate vocab.length 0) with
  | some counts =>
    match vocab.foldlM (queryScale64 totalDocs df) counts with
    | some qVec => some (normalize64 qVec)
    | none => none
  | none => none

/-- The scores of lines 192-194 in float64, one per document vector. -/
def scoresFrom64 (qVec : List ℚ) : List (List ℚ) → Option (List ℚ)
  | [] => some []
  | v :: vectors =>
    match cosine64 v qVec, scoresFrom64 qVec vectors with
    | some score, some rest => some (score :: rest)
    | _, _ => none

/-- Lines 164-194 of `main` in float64: the scores of the query tokens against the
units. -/
def scores64 (sentences : List (List GoString)) (query : List GoString) : Option (List ℚ) :=
  match tfidf64 sentences with
  | some (vectors, vocab, df) =>
    match queryVector64 vocab df sentences.length query with
    | some qVec => scoresFrom64 qVec vectors
    | none => none
  | none => none

/-! ## Predicates used in the statements -/

/-- A vocabulary whose indices are `0, 1, ...` in insertion order. -/
def VocabOK (vocab : Vocab) : Prop :=
  vocab.map Prod.snd = List.range vocab.length

/-- Every word of `sent` is a key of `vocab`. -/
def Known (vocab : Vocab) (sent : List GoString) : Prop :=
  ∀ w ∈ sent, (vocab.lookup w).isSome = true

/-- The vector `vec` is the raw count vector computed for the unit `sent`. -/
def RawCount {α : Type} [LinearOrderedField α] (vocab : Vocab) (sent : List GoString)
    (vec : List α) : Prop :=
  ∃ termSeen, countUnit vocab sent = some (vec, termSeen)

/-- The dot product of two vectors, over their common slots. -/
def dot {α : Type} [LinearOrderedField α] (a b : List α) : α :=
  (List.zipWith (fun x y => x * y) a b).sum

/-- The last word of `s` when any white space delimits words: what follows the
last white space character of `s`. -/
def lastWordAnySpace (s : GoString) : GoString :=
  s.rtakeWhile (fun c => !isSpace c)

/-- The six abbreviations listed by the specification. -/
def listedAbbreviations : List GoString :=
  ["art.".toList, "arts.".toList, "etc.".toList, "sr.".toList, "sra.".toList, "dr.".toList]

/-- The contract of `sort.Slice(results, less)` for the `less` of line 197
(`results[i].Score > results[j].Score`): `sorted` is a rearrangement of `results`
in which no later entry is `less` than an earlier one. The order of entries with
equal scores is left open. -/
def SortedByScore {α : Type} [LinearOrderedField α] (results sorted : List (Result α)) : Prop :=
  sorted.Perm results ∧ sorted.Pairwise (fun a b => ¬ b.Score > a.Score)

/-! ## Segmenter: auxiliary facts -/

theorem isSpace_space : isSpace ' ' = true := by decide

theorem dropWhile_rdropWhile_fix {α : Type} (p : α → Bool) (l : List α)
    (h : l.dropWhile p = l) : (l.rdropWhile p).dropWhile p = l.rdropWhile p := by
  cases l with
  | nil => simp
  | cons a t =>
    have ha : p a = false := by
      by_contra hp
      have hp1 : p a = true := by simpa using hp
      rw [List.dropWhile_cons_of_pos hp1] at h
      have hlen := (List.dropWhile_suffix p (l := t)).length_le
      rw [h] at hlen
      simp at hlen
    obtain ⟨s, hs⟩ := List.rdropWhile_prefix p (a :: t)
    cases hr : (a :: t).rdropWhile p with
    | nil => simp
    | cons b u =>
      rw [hr] at hs
      have hb : b = a := by simpa using congrArg List.head? hs
      subst hb
      simp [List.dropWhile_cons, ha]

theorem trimSpace_idem (x : GoString) : trimSpace (trimSpace x) = trimSpace x := by
  unfold trimSpace
  rw [dropWhile_rdropWhile_fix isSpace _ (List.dropWhile_idempotent _ _), List.rdropWhile_idempotent]

theorem trimSpace_cons_space (x : GoString) : trimSpace (' ' :: x) = trimSpace x := by
  simp [trimSpace, List.dropWhile_cons, isSpace_space]

theorem intercalate_cons_of_ne_nil {α : Type} (sep x : List α) (l : List (List α)) (h : l ≠ []) :
    sep.intercalate (x :: l) = x ++ sep ++ sep.intercalate l := by
  cases l with
  | nil => exact absurd rfl h
  | cons y ys => simp [List.intercalate, List.intersperse]

theorem intercalate_merge {α : Type} (sep a b : List α) (xs C : List (List α)) :
    sep.intercalate (xs ++ (a ++ sep ++ b) :: C) = sep.intercalate (xs ++ a :: b :: C) := by
  induction xs with
  | nil =>
    cases C with
    | nil => simp [List.intercalate, List.intersperse]
    | cons c C => simp [List.intercalate, List.intersperse]
  | cons x xs ih =>
    rw [List.cons_append, List.cons_append, intercalate_cons_of_ne_nil _ _ _ (by simp),
      intercalate_cons_of_ne_nil _ _ _ (by simp), ih]

theorem splitStep_trim (tbl : Char → Char) (acc : List GoString) (i : Nat) (r : GoString) :
    splitStep tbl acc i (trimSpace r) = splitStep tbl acc i r := by
  simp only [splitStep, trimSpace_idem]

theorem splitLoop_trim (tbl : Char → Char) (raw : List GoString) :
    ∀ (acc : List GoString) (i : Nat),
      splitLoop tbl acc i (raw.map trimSpace) = splitLoop tbl acc i raw := by
  induction raw with
  | nil => intro acc i; rfl
  | cons r raw ih =>
    intro acc i
    simp only [List.map_cons, splitLoop, splitStep_trim, ih]

theorem joinDot_splitStep (tbl : Char → Char) (acc : List GoString) (i : Nat) (r : GoString)
    (C : List GoString) :
    joinDot (splitStep tbl acc i r ++ C) = joinDot (acc ++ trimSpace r :: C) := by
  unfold splitStep
  rcases List.eq_nil_or_concat acc with h | ⟨init, last, h⟩
  · subst h; simp
  · subst h
    simp only [List.concat_eq_append, List.getLast?_append, List.getLast?_singleton,
      Option.or, List.dropLast_concat]
    split_ifs with hc
    · simp only [joinDot, List.append_assoc, List.singleton_append]
      have h := intercalate_merge ['.', ' '] last (trimSpace r) init C
      simpa only [List.append_assoc] using h
    · simp

theorem joinDot_splitLoop (tbl : Char → Char) (raw : List GoString) :
    ∀ (acc : List GoString) (i : Nat),
      joinDot (splitLoop tbl acc i raw) = joinDot (acc ++ raw.map trimSpace) := by
  induction raw with
  | nil => intro acc i; simp [splitLoop]
  | cons r raw ih =>
    intro acc i
    simp only [splitLoop, ih, List.map_cons]
    exact joinDot_splitStep tbl acc i r _


theorem not_mem_of_mem_splitOnP {α : Type} (p : α → Bool) (xs : List α) :
    ∀ l ∈ xs.splitOnP p, ∀ x ∈ l, p x = false := by
  induction xs with
  | nil => simp
  | cons a t ih =>
    rw [List.splitOnP_cons]
    by_cases h : p a = true
    · rw [if_pos h]
      intro l hl
      rcases List.mem_cons.1 hl with h1 | h1
      · subst h1; simp
      · exact ih l h1
    · rw [if_neg h]
      have hne := List.splitOnP_ne_nil p t
      cases hs : t.splitOnP p with
      | nil => exact absurd hs hne
      | cons hd tl =>
        rw [hs] at ih
        intro l hl
        simp only [List.modifyHead_cons, List.mem_cons] at hl
        rcases hl with h1 | h1
        · subst h1
          intro x hx
          rcases List.mem_cons.1 hx with h2 | h2
          · subst h2; simpa using h
          · exact ih hd (List.mem_cons_self _ _) x h2
        · exact ih l (List.mem_cons_of_mem _ h1)

theorem dot_not_mem_splitDot (t : GoString) : ∀ l ∈ splitDot t, '.' ∉ l := by
  intro l hl hmem
  have := not_mem_of_mem_splitOnP (fun c => c == '.') t l hl '.' hmem
  simp at this

theorem trimSpace_subset (x : GoString) : trimSpace x ⊆ x :=
  fun _ hc => (List.dropWhile_suffix isSpace).subset
    ((List.rdropWhile_prefix isSpace (x.dropWhile isSpace)).subset hc)

theorem joinDot_eq_intercalate_dot (f : GoString) (fs : List GoString) :
    joinDot (f :: fs) = ['.'].intercalate (f :: fs.map (fun s => ' ' :: s)) := by
  induction fs generalizing f with
  | nil => simp [joinDot, List.intercalate]
  | cons g gs ih =>
    have h := ih g
    unfold joinDot at h ⊢
    rw [intercalate_cons_of_ne_nil ['.', ' '] f (g :: gs) (by simp), h, List.map_cons,
      intercalate_cons_of_ne_nil ['.'] f _ (by simp)]
    cases gs <;> simp [List.intercalate]

theorem splitDot_joinDot (fs : List GoString) (hne : fs ≠ [])
    (hdot : ∀ l ∈ fs, '.' ∉ l) (htrim : ∀ l ∈ fs, trimSpace l = l) :
    (splitDot (joinDot fs)).map trimSpace = fs := by
  cases fs with
  | nil => exact absurd rfl hne
  | cons f fs =>
    rw [joinDot_eq_intercalate_dot, splitDot, List.splitOn_intercalate]
    · simp only [List.map_cons, List.map_map]
      rw [htrim f (List.mem_cons_self _ _)]
      congr 1
      have : ∀ l ∈ fs, (trimSpace ∘ fun s => ' ' :: s) l = id l := by
        intro l hl
        simp only [Function.comp, trimSpace_cons_space, id]
        exact htrim l (List.mem_cons_of_mem _ hl)
      rw [List.map_congr_left this, List.map_id]
    · intro l hl
      rcases List.mem_cons.1 hl with h | h
      · subst h; exact hdot _ (List.mem_cons_self _ _)
      · obtain ⟨s, hs, rfl⟩ := List.mem_map.1 h
        intro hmem
        rcases List.mem_cons.1 hmem with h2 | h2
        · exact absurd h2 (by decide)
        · exact hdot s (List.mem_cons_of_mem _ hs) h2
    · simp

/-! ## Segmenter: the claims -/

/-- C1 (as amended): on "Ver el art. 5 del código. Es obligatorio." the segmenter
merges the split after "art." and returns three units, the last one being the
empty fragment that follows the final period. -/
theorem splitIntoSentences_art (tbl : Char → Char) :
    splitIntoSentences tbl "Ver el art. 5 del código. Es obligatorio.".toList
      = ["Ver el art. 5 del código".toList, "Es obligatorio".toList, []] := by
  rfl

/-- C1 (as stated, refuted): for no case table is the result the two-element
sequence without the trailing empty unit. -/
theorem splitIntoSentences_art_not_two :
    ¬ ∃ tbl : Char → Char,
      splitIntoSentences tbl "Ver el art. 5 del código. Es obligatorio.".toList
        = ["Ver el art. 5 del código".toList, "Es obligatorio".toList] := by
  rintro ⟨tbl, h⟩
  have h3 : splitIntoSentences tbl "Ver el art. 5 del código. Es obligatorio.".toList
      = ["Ver el art. 5 del código".toList, "Es obligatorio".toList, []] := rfl
  rw [h3] at h
  exact absurd h (by decide)

/-- C2: segmentation is idempotent under rejoining with ". ". -/
theorem splitIntoSentences_joinDot (tbl : Char → Char) (t : GoString) :
    splitIntoSentences tbl (joinDot (splitIntoSentences tbl t)) = splitIntoSentences tbl t := by
  have hne : (splitDot t).map trimSpace ≠ [] := by
    simpa [splitDot, List.splitOn] using List.splitOnP_ne_nil _ t
  have hdot : ∀ l ∈ (splitDot t).map trimSpace, '.' ∉ l := by
    intro l hl
    obtain ⟨s, hs, rfl⟩ := List.mem_map.1 hl
    exact fun hm => dot_not_mem_splitDot t s hs (trimSpace_subset s hm)
  have htrim : ∀ l ∈ (splitDot t).map trimSpace, trimSpace l = l := by
    intro l hl
    obtain ⟨s, _, rfl⟩ := List.mem_map.1 hl
    exact trimSpace_idem s
  have hjoin : joinDot (splitIntoSentences tbl t) = joinDot ((splitDot t).map trimSpace) := by
    simpa [splitIntoSentences] using joinDot_splitLoop tbl (splitDot t) [] 0
  unfold splitIntoSentences at hjoin ⊢
  rw [hjoin, ← splitLoop_trim tbl (splitDot (joinDot _)), splitDot_joinDot _ hne hdot htrim,
    splitLoop_trim]

/-! ## Vectoriser: auxiliary facts -/

theorem vocabOK_insert (v : Vocab) (w : GoString) (h : VocabOK v) :
    VocabOK (vocabInsert v w) := by
  unfold vocabInsert
  split_ifs
  · exact h
  · unfold VocabOK at h ⊢
    simp [List.range_succ, h]

theorem vocabOK_foldl (ws : List GoString) :
    ∀ v : Vocab, VocabOK v → VocabOK (ws.foldl vocabInsert v) := by
  induction ws with
  | nil => intro v h; exact h
  | cons w ws ih => intro v h; exact ih _ (vocabOK_insert v w h)

theorem lookup_insert_self (v : Vocab) (w : GoString) :
    ((vocabInsert v w).lookup w).isSome = true := by
  unfold vocabInsert
  split_ifs with h
  · exact h
  · simp [List.lookup_append]

theorem lookup_insert_mono (v : Vocab) (w w' : GoString)
    (h : (v.lookup w').isSome = true) : ((vocabInsert v w).lookup w').isSome = true := by
  unfold vocabInsert
  split_ifs
  · exact h
  · obtain ⟨i, hi⟩ := Option.isSome_iff_exists.1 h
    simp [List.lookup_append, hi]

theorem lookup_foldl_mono (ws : List GoString) (w' : GoString) :
    ∀ v : Vocab, (v.lookup w').isSome = true →
      ((ws.foldl vocabInsert v).lookup w').isSome = true := by
  induction ws with
  | nil => intro v h; exact h
  | cons w ws ih => intro v h; exact ih _ (lookup_insert_mono v w w' h)

theorem lookup_foldl_mem (ws : List GoString) (w' : GoString) :
    ∀ v : Vocab, w' ∈ ws → ((ws.foldl vocabInsert v).lookup w').isSome = true := by
  induction ws with
  | nil => intro v h; simp at h
  | cons w ws ih =>
    intro v h
    rcases List.mem_cons.1 h with h1 | h1
    · subst h1
      exact lookup_foldl_mono ws w' _ (lookup_insert_self v w')
    · exact ih _ h1

theorem buildVocab_eq (sentences : List (List GoString)) :
    buildVocab sentences = sentences.flatten.foldl vocabInsert [] := by
  unfold buildVocab
  rw [List.foldl_flatten]

theorem buildVocab_ok (sentences : List (List GoString)) : VocabOK (buildVocab sentences) := by
  rw [buildVocab_eq]
  exact vocabOK_foldl _ [] rfl

theorem buildVocab_known (sentences : List (List GoString)) :
    ∀ sent ∈ sentences, Known (buildVocab sentences) sent := by
  intro sent hs w hw
  rw [buildVocab_eq]
  exact lookup_foldl_mem _ w [] (List.mem_flatten.2 ⟨sent, hs, hw⟩)

theorem lookup_lt (v : Vocab) (h : VocabOK v) (w : GoString) (i : Nat)
    (hl : v.lookup w = some i) : i < v.length := by
  obtain ⟨l₁, l₂, hv, _⟩ := List.lookup_eq_some_iff.1 hl
  have hm : i ∈ v.map Prod.snd := by
    rw [hv]; simp
  rw [h] at hm
  exact List.mem_range.1 hm

theorem vocabIndex_lt (v : Vocab) (h : VocabOK v) (w : GoString)
    (hw : (v.lookup w).isSome = true) : vocabIndex v w < v.length := by
  obtain ⟨i, hi⟩ := Option.isSome_iff_exists.1 hw
  unfold vocabIndex
  rw [hi]
  exact lookup_lt v h w i hi

theorem foldlM_inv {β γ : Type} (f : β → γ → Option β) (P : β → Prop) (l : List γ)
    (h : ∀ b, P b → ∀ x ∈ l, ∃ b', f b x = some b' ∧ P b') :
    ∀ b, P b → ∃ b', l.foldlM f b = some b' ∧ P b' := by
  induction l with
  | nil => intro b hb; exact ⟨b, rfl, hb⟩
  | cons x l ih =>
    intro b hb
    obtain ⟨b₁, h₁, hP₁⟩ := h b hb x (List.mem_cons_self _ _)
    obtain ⟨b₂, h₂, hP₂⟩ :=
      ih (fun b hb y hy => h b hb y (List.mem_cons_of_mem _ hy)) b₁ hP₁
    exact ⟨b₂, by simp [List.foldlM_cons, h₁, h₂], hP₂⟩

theorem bump_of_lt {α : Type} [LinearOrderedField α] (vec : List α) (idx : Nat)
    (h : idx < vec.length) : bump vec idx = some (vec.set idx (vec[idx] + 1)) := by
  unfold bump
  rw [List.getElem?_eq_getElem h]

theorem nonneg_of_mem_set {α : Type} [LinearOrderedField α] (vec : List α) (idx : Nat) (y : α)
    (hv : ∀ x ∈ vec, 0 ≤ x) (hy : 0 ≤ y) : ∀ x ∈ vec.set idx y, 0 ≤ x := by
  intro x hx
  rcases List.mem_or_eq_of_mem_set hx with h | h
  · exact hv x h
  · rw [h]; exact hy

theorem countStep_inv {α : Type} [LinearOrderedField α] (vocab : Vocab) (hv : VocabOK vocab)
    (st : List α × List Nat) (w : GoString) (hw : (vocab.lookup w).isSome = true)
    (hst : st.1.length = vocab.length ∧ ∀ x ∈ st.1, 0 ≤ x) :
    ∃ st', countStep vocab st w = some st' ∧
      (st'.1.length = vocab.length ∧ ∀ x ∈ st'.1, 0 ≤ x) := by
  have hlt : vocabIndex vocab w < st.1.length := by
    rw [hst.1]; exact vocabIndex_lt vocab hv w hw
  have hc : countStep vocab st w = some (st.1.set (vocabIndex vocab w)
      (st.1[vocabIndex vocab w] + 1),
      if st.2.contains (vocabIndex vocab w) then st.2 else st.2 ++ [vocabIndex vocab w]) := by
    simp only [countStep, bump_of_lt _ _ hlt]
  refine ⟨_, hc, ?_, ?_⟩
  · simp [hst.1]
  · exact nonneg_of_mem_set _ _ _ hst.2
      (add_nonneg (hst.2 _ (List.getElem_mem _)) zero_le_one)

theorem countUnit_some {α : Type} [LinearOrderedField α] (vocab : Vocab) (hv : VocabOK vocab)
    (sent : List GoString) (hk : Known vocab sent) :
    ∃ st : List α × List Nat, countUnit vocab sent = some st ∧
      (st.1.length = vocab.length ∧ ∀ x ∈ st.1, 0 ≤ x) := by
  unfold countUnit
  refine foldlM_inv (countStep vocab) (fun st => st.1.length = vocab.length ∧ ∀ x ∈ st.1, 0 ≤ x)
    sent ?_ _ ?_
  · intro b hb w hw
    exact countStep_inv vocab hv b w (hk w hw) hb
  · refine ⟨by simp, ?_⟩
    intro x hx
    rw [List.eq_of_mem_replicate hx]

theorem countUnit_nil {α : Type} [LinearOrderedField α] (vocab : Vocab) :
    countUnit vocab [] = some ((List.replicate vocab.length 0 : List α), []) := rfl

theorem indexLoop_some {α : Type} [LinearOrderedField α] (vocab : Vocab) (hv : VocabOK vocab)
    (sentences : List (List GoString)) :
    (∀ sent ∈ sentences, Known vocab sent) →
    ∀ st : List (List α) × (Nat → Nat),
      ∃ raws df, sentences.foldlM (indexStep vocab) st = some (st.1 ++ raws, df) ∧
        List.Forall₂ (RawCount vocab) sentences raws := by
  induction sentences with
  | nil =>
    intro _ st
    exact ⟨[], st.2, by simp, List.Forall₂.nil⟩
  | cons sent sentences ih =>
    intro hk st
    obtain ⟨⟨vec, seen⟩, hc, hlen, hpos⟩ :=
      countUnit_some (α := α) vocab hv sent (hk sent (List.mem_cons_self _ _))
    obtain ⟨raws, df, hf, hall⟩ :=
      ih (fun s hs => hk s (List.mem_cons_of_mem _ hs)) (st.1 ++ [vec], seen.foldl dfIncr st.2)
    refine ⟨vec :: raws, df, ?_, List.Forall₂.cons ⟨seen, hc⟩ hall⟩
    simp only [List.foldlM_cons, indexStep, hc]
    simpa using hf

theorem tfidf_spec {α : Type} [LinearOrderedField α] (log sqrt : α → α)
    (sentences : List (List GoString)) :
    ∃ raws df, tfidf log sqrt sentences
        = some (raws.map (fun vec => normalize sqrt (weightFrom log sentences.length df 0 vec)),
            buildVocab sentences, df) ∧
      List.Forall₂ (RawCount (buildVocab sentences)) sentences raws := by
  obtain ⟨raws, df, hf, hall⟩ := indexLoop_some (α := α) (buildVocab sentences)
    (buildVocab_ok sentences) sentences (buildVocab_known sentences) ([], fun _ => 0)
  refine ⟨raws, df, ?_, hall⟩
  unfold tfidf
  simp only [hf, List.nil_append]

theorem rawCount_inv {α : Type} [LinearOrderedField α] (vocab : Vocab) (hv : VocabOK vocab)
    (sent : List GoString) (hk : Known vocab sent) (vec : List α) (h : RawCount vocab sent vec) :
    vec.length = vocab.length ∧ ∀ x ∈ vec, 0 ≤ x := by
  obtain ⟨seen, hs⟩ := h
  obtain ⟨st, hst, hP⟩ := countUnit_some (α := α) vocab hv sent hk
  rw [hs] at hst
  cases hst
  exact hP

/-! ## Norms and cosine: auxiliary facts -/

theorem foldl_sq {α : Type} [LinearOrderedField α] (v : List α) :
    ∀ a : α, v.foldl (fun norm x => norm + x * x) a = a + sumSquares v := by
  unfold sumSquares
  induction v with
  | nil => intro a; simp
  | cons x v ih =>
    intro a
    simp only [List.foldl_cons]
    rw [ih (a + x * x), ih (0 + x * x)]
    ring

theorem sumSquares_nil {α : Type} [LinearOrderedField α] : sumSquares ([] : List α) = 0 := rfl

theorem sumSquares_cons {α : Type} [LinearOrderedField α] (x : α) (v : List α) :
    sumSquares (x :: v) = x * x + sumSquares v := by
  have h := foldl_sq v (0 + x * x)
  simp only [zero_add] at h
  simpa [sumSquares] using h

theorem sumSquares_nonneg {α : Type} [LinearOrderedField α] (v : List α) :
    0 ≤ sumSquares v := by
  induction v with
  | nil => simp [sumSquares_nil]
  | cons x v ih =>
    rw [sumSquares_cons]
    exact add_nonneg (mul_self_nonneg x) ih

theorem sumSquares_eq_zero_iff {α : Type} [LinearOrderedField α] (v : List α) :
    sumSquares v = 0 ↔ ∀ x ∈ v, x = 0 := by
  induction v with
  | nil => simp [sumSquares_nil]
  | cons x v ih =>
    rw [sumSquares_cons, add_eq_zero_iff_of_nonneg (mul_self_nonneg x) (sumSquares_nonneg v), ih]
    simp

theorem sumSquares_map_div {α : Type} [LinearOrderedField α] (v : List α) (c : α) :
    sumSquares (v.map (fun x => x / c)) = sumSquares v / (c * c) := by
  induction v with
  | nil => simp [sumSquares_nil]
  | cons x v ih =>
    rw [List.map_cons, sumSquares_cons, sumSquares_cons, ih]
    by_cases hc : c = 0
    · subst hc; simp
    · field_simp

theorem dot_nil_left {α : Type} [LinearOrderedField α] (b : List α) : dot [] b = 0 := by
  simp [dot]

theorem dot_cons {α : Type} [LinearOrderedField α] (x y : α) (a b : List α) :
    dot (x :: a) (y :: b) = x * y + dot a b := by
  simp [dot]

theorem dot_comm {α : Type} [LinearOrderedField α] (a : List α) :
    ∀ b : List α, dot a b = dot b a := by
  induction a with
  | nil => intro b; cases b <;> simp [dot]
  | cons x a ih =>
    intro b
    cases b with
    | nil => simp [dot]
    | cons y b => rw [dot_cons, dot_cons, ih b, mul_comm]

theorem dot_self {α : Type} [LinearOrderedField α] (a : List α) : dot a a = sumSquares a := by
  induction a with
  | nil => simp [dot, sumSquares_nil]
  | cons x a ih => rw [dot_cons, sumSquares_cons, ih]

theorem cosineLoop_eq {α : Type} [LinearOrderedField α] (a : List α) :
    ∀ (b : List α) (p q r : α), a.length = b.length →
      cosineLoop a b (p, q, r) = some (p + dot a b, q + sumSquares a, r + sumSquares b) := by
  induction a with
  | nil =>
    intro b p q r h
    cases b with
    | nil => simp [cosineLoop, dot, sumSquares_nil]
    | cons y b => simp at h
  | cons x a ih =>
    intro b p q r h
    cases b with
    | nil => simp at h
    | cons y b =>
      simp only [cosineLoop]
      rw [ih b _ _ _ (by simpa using h), dot_cons, sumSquares_cons, sumSquares_cons]
      simp only [add_assoc]

theorem cosineLoop_short {α : Type} [LinearOrderedField α] (a : List α) :
    ∀ (b : List α) (acc : α × α × α), b.length < a.length → cosineLoop a b acc = none := by
  induction a with
  | nil => intro b acc h; simp at h
  | cons x a ih =>
    intro b acc h
    cases b with
    | nil => rfl
    | cons y b =>
      obtain ⟨p, q, r⟩ := acc
      simp only [cosineLoop]
      exact ih b _ (by simpa using h)

theorem cosine_eq {α : Type} [LinearOrderedField α] (sqrt : α → α) (a b : List α)
    (h : a.length = b.length) :
    cosine sqrt a b = if sumSquares a = 0 ∨ sumSquares b = 0 then some 0
      else some (dot a b / (sqrt (sumSquares a) * sqrt (sumSquares b))) := by
  unfold cosine
  rw [cosineLoop_eq a b 0 0 0 h]
  simp only [zero_add]

/-- The Cauchy-Schwarz inequality for the sums accumulated by `cosine`. -/
theorem dot_sq_le {α : Type} [LinearOrderedField α] (a : List α) :
    ∀ b : List α, dot a b * dot a b ≤ sumSquares a * sumSquares b := by
  induction a with
  | nil => intro b; simp [dot_nil_left, sumSquares_nil]
  | cons x a ih =>
    intro b
    cases b with
    | nil => simp [dot, sumSquares_nil]
    | cons y b =>
      rw [dot_cons, sumSquares_cons, sumSquares_cons]
      have hd := ih b
      have hA := sumSquares_nonneg a
      have hB := sumSquares_nonneg b
      generalize dot a b = d at hd ⊢
      generalize sumSquares a = A at hd hA ⊢
      generalize sumSquares b = B at hd hB ⊢
      have key : 2 * (x * y * d) ≤ x * x * B + y * y * A := by
        rcases hB.eq_or_lt with hB0 | hBpos
        · subst hB0
          have hd0 : d = 0 := by
            have : d * d ≤ 0 := by simpa using hd
            exact mul_self_eq_zero.1 (le_antisymm this (mul_self_nonneg d))
          subst hd0
          simpa using mul_nonneg (mul_self_nonneg y) hA
        · have h1 : 0 ≤ B * (x * x * B + y * y * A - 2 * (x * y * d)) := by
            nlinarith [mul_self_nonneg (x * B - y * d),
              mul_nonneg (mul_self_nonneg y) (sub_nonneg.2 hd)]
          have h2 := nonneg_of_mul_nonneg_right h1 hBpos
          linarith
      nlinarith [key, hd]


theorem weightFrom_length {α : Type} [LinearOrderedField α] (log : α → α) (n : Nat)
    (df : Nat → Nat) (v : List α) : ∀ j, (weightFrom log n df j v).length = v.length := by
  induction v with
  | nil => intro j; rfl
  | cons x v ih => intro j; simp [weightFrom, ih]

theorem normalize_length {α : Type} [LinearOrderedField α] (sqrt : α → α) (v : List α) :
    (normalize sqrt v).length = v.length := by
  simp only [normalize]
  split_ifs <;> simp

theorem forall₂_mem_right {β γ : Type} (R : β → γ → Prop) (l₁ : List β) (l₂ : List γ)
    (h : List.Forall₂ R l₁ l₂) : ∀ y ∈ l₂, ∃ x ∈ l₁, R x y := by
  induction h with
  | nil => intro y hy; simp at hy
  | cons hh _ ih =>
    intro y hy
    rcases List.mem_cons.1 hy with h1 | h1
    · subst h1; exact ⟨_, List.mem_cons_self _ _, hh⟩
    · obtain ⟨x, hx, hr⟩ := ih y h1
      exact ⟨x, List.mem_cons_of_mem _ hx, hr⟩

theorem forall₂_getElem? {β γ : Type} (R : β → γ → Prop) (l₁ : List β) (l₂ : List γ)
    (h : List.Forall₂ R l₁ l₂) : ∀ (k : Nat) (x : β), l₁[k]? = some x →
      ∃ y, l₂[k]? = some y ∧ R x y := by
  induction h with
  | nil => intro k x hx; simp at hx
  | cons hh _ ih =>
    intro k x hx
    cases k with
    | zero =>
      simp only [List.getElem?_cons_zero, Option.some.injEq] at hx
      subst hx
      exact ⟨_, by simp, hh⟩
    | succ k =>
      simp only [List.getElem?_cons_succ] at hx ⊢
      exact ih k x hx

theorem normalize_unit_or_zero (v : List ℝ) :
    Real.sqrt (sumSquares (normalize Real.sqrt v)) = 1 ∨
      ∀ x ∈ normalize Real.sqrt v, x = 0 := by
  have hs := sumSquares_nonneg v
  unfold normalize
  by_cases h : Real.sqrt (sumSquares v) = 0
  · right
    simp only [h, if_true]
    exact (sumSquares_eq_zero_iff v).1 ((Real.sqrt_eq_zero hs).1 h)
  · left
    simp only [h, if_false]
    have hne : sumSquares v ≠ 0 := fun h0 => h (by rw [h0, Real.sqrt_zero])
    rw [sumSquares_map_div, Real.mul_self_sqrt hs, div_self hne, Real.sqrt_one]

/-- The vectors returned by `tfidf` have one slot per vocabulary entry. -/
theorem tfidf_lengths {α : Type} [LinearOrderedField α] (log sqrt : α → α)
    (sentences : List (List GoString)) (vectors : List (List α)) (vocab : Vocab)
    (df : Nat → Nat) (h : tfidf log sqrt sentences = some (vectors, vocab, df)) :
    vocab = buildVocab sentences ∧ vectors.length = sentences.length ∧
      ∀ v ∈ vectors, v.length = vocab.length := by
  obtain ⟨raws, df', hs, hall⟩ := tfidf_spec log sqrt sentences
  rw [hs] at h
  simp only [Option.some.injEq, Prod.mk.injEq] at h
  obtain ⟨h1, h2, h3⟩ := h
  subst h1 h2 h3
  refine ⟨rfl, by simpa using hall.length_eq.symm, ?_⟩
  intro v hv
  obtain ⟨raw, hraw, rfl⟩ := List.mem_map.1 hv
  rw [normalize_length, weightFrom_length]
  obtain ⟨sent, hsent, hrc⟩ := forall₂_mem_right _ _ _ hall raw hraw
  exact (rawCount_inv _ (buildVocab_ok sentences) sent (buildVocab_known sentences sent hsent)
    raw hrc).1

theorem cosine_self_of_sumSquares_ne (a : List ℝ) (hne : sumSquares a ≠ 0) :
    cosine Real.sqrt a a = some 1 := by
  rw [cosine_eq Real.sqrt a a rfl, dot_self]
  simp only [hne, or_self, if_false]
  rw [Real.mul_self_sqrt (sumSquares_nonneg a), div_self hne]

theorem cosine_le_one (a b : List ℝ) (h : a.length = b.length) :
    ∃ c, cosine Real.sqrt a b = some c ∧ c ≤ 1 := by
  rw [cosine_eq Real.sqrt a b h]
  split_ifs with hz
  · exact ⟨0, rfl, zero_le_one⟩
  · refine ⟨_, rfl, ?_⟩
    have hA := sumSquares_nonneg a
    have hB := sumSquares_nonneg b
    have hpos : 0 < Real.sqrt (sumSquares a) * Real.sqrt (sumSquares b) := by
      apply mul_pos
      · exact Real.sqrt_pos.2 (lt_of_le_of_ne hA (fun h0 => hz (Or.inl h0.symm)))
      · exact Real.sqrt_pos.2 (lt_of_le_of_ne hB (fun h0 => hz (Or.inr h0.symm)))
    rw [div_le_one hpos, ← Real.sqrt_mul hA]
    have hcs : dot a b ^ 2 ≤ sumSquares a * sumSquares b := by
      rw [pow_two]; exact dot_sq_le a b
    exact le_trans (le_abs_self _) (Real.abs_le_sqrt hcs)

/-! ## The claims on vectors and scores -/

/-- C3: every vector returned by `tfidf` has Euclidean norm 1 or is all zero
(over the reals), and `tfidf` returns on every input. -/
theorem tfidf_unit_norm_or_zero (sentences : List (List GoString)) :
    ∃ vectors vocab df, tfidf Real.log Real.sqrt sentences = some (vectors, vocab, df) ∧
      ∀ v ∈ vectors, Real.sqrt (sumSquares v) = 1 ∨ ∀ x ∈ v, x = 0 := by
  obtain ⟨raws, df, hs, _⟩ := tfidf_spec Real.log Real.sqrt sentences
  refine ⟨_, _, _, hs, ?_⟩
  intro v hv
  obtain ⟨raw, _, rfl⟩ := List.mem_map.1 hv
  exact normalize_unit_or_zero _

/-- C5: `cosine` is symmetric on every pair of vectors; two vectors have one
slot per vocabulary entry each, hence the same length. -/
theorem cosine_symmetric {α : Type} [LinearOrderedField α] (sqrt : α → α) (a b : List α)
    (h : a.length = b.length) : cosine sqrt a b = cosine sqrt b a := by
  rw [cosine_eq sqrt a b h, cosine_eq sqrt b a h.symm, dot_comm a b,
    mul_comm (sqrt (sumSquares a))]
  simp only [or_comm]

/-- Witness of `cosine_symmetric` on two real vectors of length two. -/
theorem cosine_symmetric_witness :
    ([1, 2] : List ℝ).length = ([3, 4] : List ℝ).length ∧
      cosine Real.sqrt [1, 2] [3, 4] = cosine Real.sqrt [3, 4] [1, 2] :=
  ⟨rfl, cosine_symmetric Real.sqrt [1, 2] [3, 4] rfl⟩

/-- C6: `cosine a a = 1` for every real vector with a non-zero slot. -/
theorem cosine_self_eq_one (a : List ℝ) (h : ∃ x ∈ a, x ≠ 0) :
    cosine Real.sqrt a a = some 1 := by
  apply cosine_self_of_sumSquares_ne
  intro h0
  obtain ⟨x, hx, hx0⟩ := h
  exact hx0 ((sumSquares_eq_zero_iff a).1 h0 x hx)

/-- Witness of `cosine_self_eq_one` on the vector `[3, 0]`. -/
theorem cosine_self_eq_one_witness :
    (∃ x ∈ ([3, 0] : List ℝ), x ≠ 0) ∧ cosine Real.sqrt [3, 0] [3, 0] = some 1 :=
  ⟨⟨3, by simp, by norm_num⟩, cosine_self_eq_one [3, 0] ⟨3, by simp, by norm_num⟩⟩

/-- C7: the best match is reported exactly when the result list is non-empty and
its first score is strictly above 0.2; a first score of exactly 0.2 reports
nothing and a first score of 0.2001 reports that entry. -/
theorem report_threshold :
    (∀ (results : List (Result ℝ)) (r : Result ℝ),
      report results = some r ↔ results.head? = some r ∧ 0.2 < r.Score) ∧
    (∀ (i : Nat) (text : GoString) (rest : List (Result ℝ)),
      report (⟨0.2, i, text⟩ :: rest) = none) ∧
    (∀ (i : Nat) (text : GoString) (rest : List (Result ℝ)),
      report (⟨0.2001, i, text⟩ :: rest) = some ⟨0.2001, i, text⟩) := by
  refine ⟨?_, ?_, ?_⟩
  · intro results r
    cases results with
    | nil => simp [report]
    | cons x xs =>
      simp only [report, gt_iff_lt, List.head?_cons, Option.some.injEq]
      constructor
      · intro h
        split_ifs at h with hx
        simp only [Option.some.injEq] at h
        subst h
        exact ⟨rfl, hx⟩
      · rintro ⟨rfl, hx⟩
        simp [hx]
  · intro i text rest
    simp [report]
  · intro i text rest
    simp only [report]
    norm_num


/-! ## The query path: auxiliary facts -/

theorem queryCount_known {α : Type} [LinearOrderedField α] (vocab : Vocab) (q : List α)
    (w : GoString) (hw : (vocab.lookup w).isSome = true) :
    queryCount vocab q w = bump q (vocabIndex vocab w) := by
  obtain ⟨i, hi⟩ := Option.isSome_iff_exists.1 hw
  simp [queryCount, vocabIndex, hi]

theorem queryCount_fold_known {α : Type} [LinearOrderedField α] (vocab : Vocab)
    (sent : List GoString) :
    Known vocab sent → ∀ st st' : List α × List Nat,
      sent.foldlM (countStep vocab) st = some st' →
      sent.foldlM (queryCount vocab) st.1 = some st'.1 := by
  induction sent with
  | nil =>
    intro _ st st' h
    simp only [List.foldlM_nil, Option.pure_def, Option.some.injEq] at h ⊢
    rw [h]
  | cons w ws ih =>
    intro hk st st' h
    have hw := hk w (List.mem_cons_self _ _)
    simp only [List.foldlM_cons, Option.bind_eq_bind] at h ⊢
    rw [queryCount_known vocab st.1 w hw]
    unfold countStep at h
    cases hb : bump st.1 (vocabIndex vocab w) with
    | none => simp [hb] at h
    | some vec =>
      simp only [hb, Option.some_bind] at h ⊢
      exact ih (fun x hx => hk x (List.mem_cons_of_mem _ hx)) _ _ h

theorem queryScale_fold {α : Type} [LinearOrderedField α] (log : α → α) (n : Nat)
    (df : Nat → Nat) (es : Vocab) :
    ∀ (s : Nat) (pre post : List α), es.map Prod.snd = List.range' s es.length →
      pre.length = s → post.length = es.length →
      es.foldlM (queryScale log n df) (pre ++ post)
        = some (pre ++ weightFrom log n df s post) := by
  induction es with
  | nil =>
    intro s pre post _ _ hpost
    have : post = [] := List.length_eq_zero.1 (by simpa using hpost)
    subst this
    simp [weightFrom]
  | cons e es ih =>
    intro s pre post hmap hpre hpost
    cases post with
    | nil => simp at hpost
    | cons x post =>
      simp only [List.map_cons, List.length_cons, List.range'_succ, List.cons.injEq] at hmap
      obtain ⟨he, hrest⟩ := hmap
      have hget : (pre ++ x :: post)[e.2]? = some x := by
        rw [he, ← hpre, List.getElem?_append_right (le_refl _)]; simp
      have hset : ∀ y : α, (pre ++ x :: post).set e.2 y = (pre ++ [y]) ++ post := by
        intro y
        rw [he, ← hpre]; simp
      have hstep : queryScale log n df (pre ++ x :: post) e
          = some ((pre ++ [if 0 < x then x * idf log n df s else x]) ++ post) := by
        simp only [queryScale, hget]
        split_ifs with hx
        · rw [hset, he]
        · simp
      simp only [List.foldlM_cons, Option.bind_eq_bind, hstep, Option.some_bind]
      rw [ih (s + 1) _ post hrest (by simp [hpre]) (by simpa using hpost)]
      simp [weightFrom]

theorem queryScale_vocab {α : Type} [LinearOrderedField α] (log : α → α) (n : Nat)
    (df : Nat → Nat) (vocab : Vocab) (hv : VocabOK vocab) (c : List α)
    (hc : c.length = vocab.length) :
    vocab.foldlM (queryScale log n df) c = some (weightFrom log n df 0 c) := by
  have h := queryScale_fold log n df vocab 0 [] c
    (by rw [← List.range_eq_range']; exact hv) rfl hc
  simpa using h

/-- The query path on the tokens of an indexed unit rebuilds the weighted and
normalised vector of that unit. -/
theorem queryVector_of_rawCount {α : Type} [LinearOrderedField α] (log sqrt : α → α)
    (vocab : Vocab) (hv : VocabOK vocab) (df : Nat → Nat) (n : Nat) (sent : List GoString)
    (hk : Known vocab sent) (raw : List α) (hr : RawCount vocab sent raw) :
    queryVector log sqrt vocab df n sent = some (normalize sqrt (weightFrom log n df 0 raw)) := by
  obtain ⟨seen, hs⟩ := hr
  have hlen := (rawCount_inv vocab hv sent hk raw ⟨seen, hs⟩).1
  have hq := queryCount_fold_known (α := α) vocab sent hk _ _ hs
  simp only at hq
  unfold queryVector
  rw [hq]
  simp only [queryScale_vocab log n df vocab hv raw hlen]

/-- C4 (as amended): with the arithmetic taken over the exact reals, a query whose
tokens are those of the indexed unit `k` scores at least as high against unit
`k` as against every indexed unit; indexing, the query path and every cosine
return. -/
theorem query_of_unit_scores_highest (sentences : List (List GoString)) (k : Nat)
    (hk : k < sentences.length) :
    ∃ vectors vocab df qVec vk sk,
      tfidf Real.log Real.sqrt sentences = some (vectors, vocab, df) ∧
      queryVector Real.log Real.sqrt vocab df sentences.length sentences[k] = some qVec ∧
      vectors[k]? = some vk ∧ cosine Real.sqrt vk qVec = some sk ∧
      ∀ v ∈ vectors, ∃ s, cosine Real.sqrt v qVec = some s ∧ s ≤ sk := by
  obtain ⟨raws, df, hs, hall⟩ := tfidf_spec Real.log Real.sqrt sentences
  obtain ⟨hvoc, _, hlen⟩ := tfidf_lengths Real.log Real.sqrt sentences _ _ _ hs
  obtain ⟨raw, hraw, hrc⟩ := forall₂_getElem? _ _ _ hall k sentences[k]
    (List.getElem?_eq_getElem hk)
  have hq := queryVector_of_rawCount Real.log Real.sqrt (buildVocab sentences)
    (buildVocab_ok sentences) df sentences.length sentences[k]
    (buildVocab_known sentences _ (List.getElem_mem _)) raw hrc
  have hvk : (raws.map (fun vec => normalize Real.sqrt
      (weightFrom Real.log sentences.length df 0 vec)))[k]?
      = some (normalize Real.sqrt (weightFrom Real.log sentences.length df 0 raw)) := by
    simp [hraw]
  have hmem := List.getElem?_mem hvk
  generalize normalize Real.sqrt (weightFrom Real.log sentences.length df 0 raw) = q
    at hq hvk hmem
  by_cases hz : sumSquares q = 0
  · have h0 : ∀ v, v.length = q.length → cosine Real.sqrt v q = some 0 := by
      intro v hv
      rw [cosine_eq Real.sqrt v q hv, if_pos (Or.inr hz)]
    refine ⟨_, _, df, q, q, 0, hs, hq, hvk, h0 q rfl, ?_⟩
    intro v hv
    exact ⟨0, h0 v (by rw [hlen v hv, hlen q hmem]), le_refl _⟩
  · refine ⟨_, _, df, q, q, 1, hs, hq, hvk, cosine_self_of_sumSquares_ne q hz, ?_⟩
    intro v hv
    exact cosine_le_one v q (by rw [hlen v hv, hlen q hmem])

/-- Witness of `query_of_unit_scores_highest`: two units, the query is the first. -/
theorem query_of_unit_scores_highest_witness :
    0 < [["casa".toList, "roja".toList], ["casa".toList]].length ∧
    ∃ vectors vocab df qVec vk sk,
      tfidf Real.log Real.sqrt [["casa".toList, "roja".toList], ["casa".toList]]
        = some (vectors, vocab, df) ∧
      queryVector Real.log Real.sqrt vocab df
        [["casa".toList, "roja".toList], ["casa".toList]].length
        ([["casa".toList, "roja".toList], ["casa".toList]].get ⟨0, by decide⟩) = some qVec ∧
      vectors[0]? = some vk ∧ cosine Real.sqrt vk qVec = some sk ∧
      ∀ v ∈ vectors, ∃ s, cosine Real.sqrt v qVec = some s ∧ s ≤ sk :=
  ⟨by decide,
    query_of_unit_scores_highest [["casa".toList, "roja".toList], ["casa".toList]] 0 (by decide)⟩


theorem sumSquares_replicate_zero {α : Type} [LinearOrderedField α] (m : Nat) :
    sumSquares (List.replicate m (0 : α)) = 0 :=
  (sumSquares_eq_zero_iff _).2 (fun _ hx => List.eq_of_mem_replicate hx)

theorem weightFrom_zeros {α : Type} [LinearOrderedField α] (log : α → α) (n : Nat)
    (df : Nat → Nat) (m : Nat) :
    ∀ j, weightFrom log n df j (List.replicate m (0 : α)) = List.replicate m 0 := by
  induction m with
  | zero => intro j; rfl
  | succ m ih => intro j; simp [List.replicate_succ, weightFrom, ih]

theorem normalize_zeros {α : Type} [LinearOrderedField α] (sqrt : α → α) (m : Nat) :
    normalize sqrt (List.replicate m (0 : α)) = List.replicate m 0 := by
  simp only [normalize]
  split_ifs
  · rfl
  · simp

theorem queryCount_fold_unknown {α : Type} [LinearOrderedField α] (vocab : Vocab)
    (query : List GoString) (c : List α) (h : ∀ w ∈ query, vocab.lookup w = none) :
    query.foldlM (queryCount vocab) c = some c := by
  induction query with
  | nil => rfl
  | cons w ws ih =>
    simp only [List.foldlM_cons, Option.bind_eq_bind, queryCount,
      h w (List.mem_cons_self _ _), Option.some_bind]
    exact ih (fun x hx => h x (List.mem_cons_of_mem _ hx))

theorem queryVector_unknown {α : Type} [LinearOrderedField α] (log sqrt : α → α)
    (vocab : Vocab) (hv : VocabOK vocab) (df : Nat → Nat) (n : Nat) (query : List GoString)
    (h : ∀ w ∈ query, vocab.lookup w = none) :
    queryVector log sqrt vocab df n query = some (List.replicate vocab.length (0 : α)) := by
  unfold queryVector
  rw [queryCount_fold_unknown vocab query _ h]
  simp only [queryScale_vocab log n df vocab hv _ (List.length_replicate _ _),
    weightFrom_zeros, normalize_zeros]

theorem cosine_zeros_right {α : Type} [LinearOrderedField α] (sqrt : α → α) (v : List α) :
    cosine sqrt v (List.replicate v.length 0) = some 0 := by
  rw [cosine_eq sqrt v _ (by simp), if_pos (Or.inr (sumSquares_replicate_zero _))]

theorem rankFrom_some {α : Type} [LinearOrderedField α] (sqrt : α → α) (q : List α)
    (texts : List GoString) (vectors : List (List α)) :
    ∀ i, (∀ v ∈ vectors, (cosine sqrt v q).isSome = true) →
      i + vectors.length ≤ texts.length →
      ∃ results, rankFrom sqrt q texts i vectors = some results ∧
        List.Forall₂ (fun v r => cosine sqrt v q = some r.Score) vectors results := by
  induction vectors with
  | nil => intro i _ _; exact ⟨[], rfl, List.Forall₂.nil⟩
  | cons v vs ih =>
    intro i hc hlen
    obtain ⟨score, hscore⟩ := Option.isSome_iff_exists.1 (hc v (List.mem_cons_self _ _))
    have hi : i < texts.length := by
      simp only [List.length_cons] at hlen; omega
    obtain ⟨rest, hrest, hall⟩ := ih (i + 1)
      (fun x hx => hc x (List.mem_cons_of_mem _ hx))
      (by simp only [List.length_cons] at hlen; omega)
    refine ⟨⟨score, i, texts[i]⟩ :: rest, ?_, List.Forall₂.cons hscore hall⟩
    simp [rankFrom, hscore, List.getElem?_eq_getElem hi, hrest]

theorem report_none_of_scores_zero (results : List (Result ℝ))
    (h : ∀ r ∈ results, r.Score = 0) : report results = none := by
  cases results with
  | nil => rfl
  | cons r rs =>
    have h0 := h r (List.mem_cons_self _ _)
    simp only [report, h0]
    norm_num

/-- C8: a query none of whose tokens is in the vocabulary of the index gets the
all-zero vector of length `|vocabulary|`, scores exactly 0 against every
document vector, and nothing is reported, however the results are ordered. -/
theorem out_of_vocabulary_query (sentences : List (List GoString)) (query texts : List GoString)
    (hq : ∀ w ∈ query, (buildVocab sentences).lookup w = none)
    (ht : texts.length = sentences.length) :
    ∃ vectors vocab df results,
      tfidf Real.log Real.sqrt sentences = some (vectors, vocab, df) ∧
      vocab = buildVocab sentences ∧
      queryVector Real.log Real.sqrt vocab df sentences.length query
        = some (List.replicate vocab.length 0) ∧
      (∀ v ∈ vectors, cosine Real.sqrt v (List.replicate vocab.length 0) = some 0) ∧
      rank Real.sqrt vectors (List.replicate vocab.length 0) texts = some results ∧
      results.length = vectors.length ∧ (∀ r ∈ results, r.Score = 0) ∧
      ∀ sorted : List (Result ℝ), sorted.Perm results → report sorted = none := by
  obtain ⟨raws, df, hs, hall⟩ := tfidf_spec Real.log Real.sqrt sentences
  obtain ⟨_, hvl, hlen⟩ := tfidf_lengths Real.log Real.sqrt sentences _ _ _ hs
  have hcos : ∀ v ∈ raws.map (fun vec => normalize Real.sqrt
      (weightFrom Real.log sentences.length df 0 vec)),
      cosine Real.sqrt v (List.replicate (buildVocab sentences).length 0) = some 0 := by
    intro v hv
    rw [← hlen v hv]
    exact cosine_zeros_right Real.sqrt v
  obtain ⟨results, hr, hfa⟩ := rankFrom_some Real.sqrt
    (List.replicate (buildVocab sentences).length 0) texts _ 0
    (fun v hv => by rw [hcos v hv]; rfl) (by rw [hvl, ht]; omega)
  have hzero : ∀ r ∈ results, r.Score = 0 := by
    intro r hr'
    obtain ⟨v, hv, hvr⟩ := forall₂_mem_right _ _ _ hfa r hr'
    rw [hcos v hv] at hvr
    exact (Option.some.inj hvr).symm
  refine ⟨_, _, df, results, hs, rfl,
    queryVector_unknown Real.log Real.sqrt _ (buildVocab_ok sentences) df _ query hq,
    hcos, hr, hfa.length_eq.symm, hzero, ?_⟩
  intro sorted hp
  exact report_none_of_scores_zero sorted (fun r hr' => hzero r (hp.subset hr'))

/-- Witness of `out_of_vocabulary_query`: the query word is in no indexed unit. -/
theorem out_of_vocabulary_query_witness :
    (∀ w ∈ ["perro".toList],
      (buildVocab [["casa".toList, "roja".toList], ["casa".toList]]).lookup w = none) ∧
    ["La casa roja".toList, "Una casa".toList].length
      = [["casa".toList, "roja".toList], ["casa".toList]].length ∧
    ∃ vectors vocab df results,
      tfidf Real.log Real.sqrt [["casa".toList, "roja".toList], ["casa".toList]]
        = some (vectors, vocab, df) ∧
      vocab = buildVocab [["casa".toList, "roja".toList], ["casa".toList]] ∧
      queryVector Real.log Real.sqrt vocab df
        [["casa".toList, "roja".toList], ["casa".toList]].length ["perro".toList]
        = some (List.replicate vocab.length 0) ∧
      (∀ v ∈ vectors, cosine Real.sqrt v (List.replicate vocab.length 0) = some 0) ∧
      rank Real.sqrt vectors (List.replicate vocab.length 0)
        ["La casa roja".toList, "Una casa".toList] = some results ∧
      results.length = vectors.length ∧ (∀ r ∈ results, r.Score = 0) ∧
      ∀ sorted : List (Result ℝ), sorted.Perm results → report sorted = none :=
  ⟨by decide, by decide,
    out_of_vocabulary_query [["casa".toList, "roja".toList], ["casa".toList]]
      ["perro".toList] ["La casa roja".toList, "Una casa".toList] (by decide) (by decide)⟩


/-! ## Signs of the weights -/

theorem weightFrom_getElem? {α : Type} [LinearOrderedField α] (log : α → α) (n : Nat)
    (df : Nat → Nat) (v : List α) :
    ∀ (s j : Nat) (y : α), (weightFrom log n df s v)[j]? = some y →
      ∃ x, v[j]? = some x ∧ y = if 0 < x then x * idf log n df (s + j) else x := by
  induction v with
  | nil => intro s j y h; simp [weightFrom] at h
  | cons x v ih =>
    intro s j y h
    cases j with
    | zero =>
      simp only [weightFrom, List.getElem?_cons_zero, Option.some.injEq] at h
      exact ⟨x, by simp, by simpa using h.symm⟩
    | succ j =>
      simp only [weightFrom, List.getElem?_cons_succ] at h ⊢
      obtain ⟨x', hx', hy⟩ := ih (s + 1) j y h
      exact ⟨x', hx', by rw [hy]; congr 3; omega⟩

theorem normalize_getElem? (v : List ℝ) (j : Nat) (y : ℝ)
    (h : (normalize Real.sqrt v)[j]? = some y) :
    ∃ x c, v[j]? = some x ∧ 0 ≤ c ∧ y = x / c := by
  simp only [normalize] at h
  split_ifs at h with hz
  · exact ⟨y, 1, h, zero_le_one, by simp⟩
  · simp only [List.getElem?_map, Option.map_eq_some'] at h
    obtain ⟨x, hx, hy⟩ := h
    exact ⟨x, _, hx, Real.sqrt_nonneg _, hy.symm⟩

theorem idf_nonneg (n : Nat) (df : Nat → Nat) (j : Nat) (h : df j < n) :
    0 ≤ idf Real.log n df j := by
  unfold idf
  apply Real.log_nonneg
  have hpos : (0 : ℝ) < ((1 + df j : Nat) : ℝ) := by
    exact_mod_cast (by omega : 0 < 1 + df j)
  rw [le_div_iff₀ hpos, one_mul]
  exact_mod_cast (by omega : 1 + df j ≤ n)

theorem idf_nonpos (n : Nat) (df : Nat → Nat) (j : Nat) (h : n ≤ df j) :
    idf Real.log n df j ≤ 0 := by
  unfold idf
  have hpos : (0 : ℝ) < ((1 + df j : Nat) : ℝ) := by
    exact_mod_cast (by omega : 0 < 1 + df j)
  apply Real.log_nonpos
  · exact div_nonneg (Nat.cast_nonneg _) hpos.le
  · rw [div_le_one hpos]
    exact_mod_cast (by omega : n ≤ 1 + df j)

/-- C10 (as stated, refuted): the single unit `["casa"]` is indexed to the vector
`[-1]`: its only term occurs in all `N = 1` units and gets the factor `ln(1/2)`. -/
theorem tfidf_negative_weight :
    ∃ vocab df, tfidf Real.log Real.sqrt [["casa".toList]] = some ([[-1]], vocab, df) := by
  have hlog : Real.log 2 ≠ 0 := (Real.log_pos (by norm_num)).ne'
  have hpos : 0 < Real.log 2 := Real.log_pos (by norm_num)
  have h : tfidf Real.log Real.sqrt [["casa".toList]]
      = some ([normalize Real.sqrt (weightFrom Real.log 1 (dfIncr (fun _ => 0) 0) 0 [0 + 1])],
          [("casa".toList, 0)], dfIncr (fun _ => 0) 0) := by
    rfl
  refine ⟨[("casa".toList, 0)], dfIncr (fun _ => 0) 0, h.trans ?_⟩
  have hw : weightFrom Real.log 1 (dfIncr (fun _ => 0) 0) 0 [(0 : ℝ) + 1] = [-Real.log 2] := by
    simp [weightFrom, idf, dfIncr, Real.log_inv]
  have hn : normalize Real.sqrt [-Real.log 2] = [-1] := by
    have hs : Real.sqrt (sumSquares [-Real.log 2]) = Real.log 2 := by
      simp only [sumSquares_cons, sumSquares_nil, add_zero, neg_mul_neg]
      exact Real.sqrt_mul_self hpos.le
    simp only [normalize, hs, hlog, if_false, List.map_cons, List.map_nil]
    rw [neg_div, div_self hlog]
  rw [hw, hn]

/-- C10 (as amended): in every vector returned by `tfidf`, a slot whose term
occurs in fewer than `N` units (`df[j] < N`) is non-negative, and a slot whose
term occurs in all `N` units is non-positive: its factor is `ln(N / (N + 1))`. -/
theorem tfidf_weight_signs (sentences : List (List GoString)) :
    ∃ vectors vocab df, tfidf Real.log Real.sqrt sentences = some (vectors, vocab, df) ∧
      ∀ v ∈ vectors, ∀ (j : Nat) (x : ℝ), v[j]? = some x →
        (df j < sentences.length → 0 ≤ x) ∧ (sentences.length ≤ df j → x ≤ 0) := by
  obtain ⟨raws, df, hs, hall⟩ := tfidf_spec Real.log Real.sqrt sentences
  refine ⟨_, _, df, hs, ?_⟩
  intro v hv j x hx
  obtain ⟨raw, hraw, rfl⟩ := List.mem_map.1 hv
  obtain ⟨sent, hsent, hrc⟩ := forall₂_mem_right _ _ _ hall raw hraw
  have hnn := (rawCount_inv _ (buildVocab_ok sentences) sent
    (buildVocab_known sentences sent hsent) raw hrc).2
  obtain ⟨y, c, hy, hc, rfl⟩ := normalize_getElem? _ j x hx
  obtain ⟨r, hr, rfl⟩ := weightFrom_getElem? _ _ _ _ 0 j y hy
  have hr0 : 0 ≤ r := hnn r (List.getElem?_mem hr)
  rw [zero_add]
  constructor
  · intro hdf
    apply div_nonneg _ hc
    split_ifs
    · exact mul_nonneg hr0 (idf_nonneg _ _ _ hdf)
    · exact hr0
  · intro hdf
    apply div_nonpos_of_nonpos_of_nonneg _ hc
    split_ifs with hpos
    · exact mul_nonpos_of_nonneg_of_nonpos hr0 (idf_nonpos _ _ _ hdf)
    · exact not_lt.1 hpos

/-! ## Empty units -/

theorem indexStep_nil {α : Type} [LinearOrderedField α] (vocab : Vocab)
    (st : List (List α) × (Nat → Nat)) :
    indexStep vocab st [] = some (st.1 ++ [List.replicate vocab.length 0], st.2) := rfl

theorem indexLoop_from_nil {α : Type} [LinearOrderedField α] (vocab : Vocab)
    (l : List (List GoString)) :
    ∀ (vs : List (List α)) (df : Nat → Nat),
      l.foldlM (indexStep vocab) (vs, df)
        = (l.foldlM (indexStep vocab) ([], df)).map (fun r => (vs ++ r.1, r.2)) := by
  induction l with
  | nil => intro vs df; simp
  | cons s l ih =>
    intro vs df
    simp only [List.foldlM_cons, Option.bind_eq_bind, indexStep]
    cases countUnit (α := α) vocab s with
    | none => simp
    | some p =>
      obtain ⟨vec, seen⟩ := p
      simp only [Option.some_bind, List.nil_append]
      rw [ih (vs ++ [vec]), ih [vec]]
      cases l.foldlM (indexStep (α := α) vocab) ([], seen.foldl dfIncr df) with
      | none => simp
      | some r => simp

theorem buildVocab_insert_nil (xs ys : List (List GoString)) :
    buildVocab (xs ++ [] :: ys) = buildVocab (xs ++ ys) := by
  rw [buildVocab_eq, buildVocab_eq]
  simp

/-- Indexing with an empty unit inserted after `xs`: that unit gets the all-zero
vector and the document frequencies are those of the index without it. -/
theorem tfidf_insert_nil {α : Type} [LinearOrderedField α] (log sqrt : α → α)
    (xs ys : List (List GoString)) :
    ∃ vectors vocab df vectors',
      tfidf log sqrt (xs ++ [] :: ys) = some (vectors, vocab, df) ∧
      tfidf log sqrt (xs ++ ys) = some (vectors', vocab, df) ∧
      vectors[xs.length]? = some (List.replicate vocab.length 0) := by
  have hv := buildVocab_ok (xs ++ ys)
  have hk := buildVocab_known (xs ++ ys)
  obtain ⟨rx, dfx, hx, hfx⟩ := indexLoop_some (α := α) (buildVocab (xs ++ ys)) hv xs
    (fun s hs => hk s (List.mem_append_left _ hs)) ([], fun _ => 0)
  obtain ⟨ry, dfy, hy, _⟩ := indexLoop_some (α := α) (buildVocab (xs ++ ys)) hv ys
    (fun s hs => hk s (List.mem_append_right _ hs)) ([], dfx)
  simp only [List.nil_append] at hx hy
  have h1 : (xs ++ [] :: ys).foldlM (indexStep (buildVocab (xs ++ ys))) ([], fun _ => 0)
      = some (rx ++ List.replicate (buildVocab (xs ++ ys)).length (0 : α) :: ry, dfy) := by
    rw [List.foldlM_append, hx]
    simp only [Option.bind_eq_bind, Option.some_bind, List.foldlM_cons, indexStep_nil]
    rw [indexLoop_from_nil, hy]
    simp
  have h2 : (xs ++ ys).foldlM (indexStep (buildVocab (xs ++ ys))) ([], fun _ => 0)
      = some (rx ++ ry, dfy) := by
    rw [List.foldlM_append, hx]
    simp only [Option.bind_eq_bind, Option.some_bind]
    rw [indexLoop_from_nil, hy]
    simp
  refine ⟨(rx ++ List.replicate (buildVocab (xs ++ ys)).length (0 : α) :: ry).map
      (fun vec => normalize sqrt (weightFrom log (xs ++ [] :: ys).length dfy 0 vec)),
    buildVocab (xs ++ ys), dfy,
    (rx ++ ry).map (fun vec => normalize sqrt (weightFrom log (xs ++ ys).length dfy 0 vec)),
    ?_, ?_, ?_⟩
  · simp only [tfidf, buildVocab_insert_nil, h1]
  · simp only [tfidf, h2]
  · have hlen : rx.length = xs.length := hfx.length_eq.symm
    rw [List.map_append, List.map_cons, ← hlen,
      List.getElem?_append_right (by simp)]
    simp [weightFrom_zeros, normalize_zeros]

/-- C9: whatever the stemmer, a text all of whose tokens are stopwords is
normalised to the empty token sequence; indexed as a unit, it gets the all-zero
vector and the document frequencies are those of the index without that unit. -/
theorem stopword_unit (tbl : Char → Char) (stem : GoString → GoString) (text : GoString)
    (xs ys : List (List GoString)) (h : ∀ w ∈ tokenize tbl text, w ∈ stopwords) :
    preprocess tbl stem text = [] ∧
    ∃ vectors vocab df vectors',
      tfidf Real.log Real.sqrt (xs ++ preprocess tbl stem text :: ys)
        = some (vectors, vocab, df) ∧
      tfidf Real.log Real.sqrt (xs ++ ys) = some (vectors', vocab, df) ∧
      vectors[xs.length]? = some (List.replicate vocab.length 0) := by
  have hp : preprocess tbl stem text = [] := by
    unfold preprocess
    rw [List.map_eq_nil_iff, List.filter_eq_nil_iff]
    intro w hw
    simpa using h w hw
  rw [hp]
  exact ⟨rfl, tfidf_insert_nil Real.log Real.sqrt xs ys⟩

/-- Witness of `stopword_unit`: a unit of stopwords, digits and punctuation
between two other units. -/
theorem stopword_unit_witness :
    (∀ w ∈ tokenize id "El de la, y LOS 123 (para).".toList, w ∈ stopwords) ∧
    preprocess id id "El de la, y LOS 123 (para).".toList = [] ∧
    ∃ vectors vocab df vectors',
      tfidf Real.log Real.sqrt ([["casa".toList]] ++
          preprocess id id "El de la, y LOS 123 (para).".toList :: [["roja".toList]])
        = some (vectors, vocab, df) ∧
      tfidf Real.log Real.sqrt ([["casa".toList]] ++ [["roja".toList]])
        = some (vectors', vocab, df) ∧
      vectors[[["casa".toList]].length]? = some (List.replicate vocab.length 0) :=
  ⟨by decide,
    stopword_unit id id "El de la, y LOS 123 (para).".toList [["casa".toList]]
      [["roja".toList]] (by decide)⟩


/-! ## Segmenter: merging, retention and slicing -/

theorem contains_iff_mem_str (l : List GoString) (x : GoString) :
    l.contains x = true ↔ x ∈ l := by
  simp [List.contains]

theorem endsWithAbbreviation_iff (tbl : Char → Char) (prev : GoString) :
    endsWithAbbreviation tbl prev = true ↔
      toLower tbl (afterLastSpace prev) ++ ['.'] ∈ listedAbbreviations := by
  have hnot : toLower tbl (afterLastSpace prev) ++ ['.'] ≠ "arts".toList := by
    intro h
    have := congrArg List.getLast? h
    simp at this
  simp only [endsWithAbbreviation, Bool.and_eq_true, contains_iff_mem_str]
  generalize hc : toLower tbl (afterLastSpace prev) ++ ['.'] = cand at hnot
  constructor
  · rintro ⟨_, hm⟩
    simp only [abbreviations, List.mem_cons, List.mem_singleton, List.not_mem_nil, or_false] at hm
    simp only [listedAbbreviations, List.mem_cons, List.mem_singleton, List.not_mem_nil, or_false]
    tauto
  · intro h
    constructor
    · cases prev with
      | nil =>
        have h1 : cand = ['.'] := by rw [← hc]; rfl
        rw [h1] at h
        exact absurd h (by decide)
      | cons c cs => rfl
    · simp only [listedAbbreviations, List.mem_cons, List.mem_singleton, List.not_mem_nil,
        or_false] at h
      simp only [abbreviations, List.mem_cons, List.mem_singleton, List.not_mem_nil, or_false]
      tauto

/-- C14: no fragment is dropped: the units joined with ". " are the trimmed
fragments joined with ". ", and every step of the loop either appends the trimmed
fragment as a unit of its own or appends it to the last unit. -/
theorem splitIntoSentences_keeps_fragments (tbl : Char → Char) (t : GoString) :
    joinDot (splitIntoSentences tbl t) = joinDot ((splitDot t).map trimSpace) ∧
    ∀ (acc : List GoString) (i : Nat) (r : GoString),
      splitStep tbl acc i r = acc ++ [trimSpace r] ∨
      ∃ init last, acc = init ++ [last] ∧
        splitStep tbl acc i r = init ++ [last ++ ['.', ' '] ++ trimSpace r] := by
  constructor
  · simpa [splitIntoSentences] using joinDot_splitLoop tbl (splitDot t) [] 0
  · intro acc i r
    rcases List.eq_nil_or_concat acc with h | ⟨init, last, h⟩
    · subst h; left; rfl
    · subst h
      simp only [splitStep, List.concat_eq_append, List.getLast?_append, List.getLast?_singleton,
        Option.or, List.dropLast_concat]
      split_ifs with hc
      · right; exact ⟨init, last, rfl, rfl⟩
      · left; rfl

/-- C15 (as stated, refuted): in "ver<TAB>art. 5" the last word delimited by white
space is "art" and "art." is a listed abbreviation, yet the fragment "5" is not
merged: the code cuts the word at the last space character only. -/
theorem tab_before_abbreviation_not_merged :
    toLower id (lastWordAnySpace (trimSpace "ver\tart".toList)) ++ ['.'] ∈ listedAbbreviations ∧
    splitStep id ["ver\tart".toList] 1 " 5".toList = ["ver\tart".toList, "5".toList] ∧
    splitIntoSentences id "ver\tart. 5".toList = ["ver\tart".toList, "5".toList] := by
  refine ⟨by decide, by decide, by decide⟩

/-- C15 (as amended): for every fragment after the first, the fragment is merged
onto the most recent sentence (re-joined with ". ") when the part of that
sentence, trimmed, after its last space character, lowercased and followed by a
period, is one of the six listed abbreviations; otherwise the trimmed fragment is
appended as a new sentence. -/
theorem splitStep_merges_iff (tbl : Char → Char) (init : List GoString) (last : GoString)
    (i : Nat) (r : GoString) (hi : 0 < i) :
    (toLower tbl (afterLastSpace (trimSpace last)) ++ ['.'] ∈ listedAbbreviations →
      splitStep tbl (init ++ [last]) i r = init ++ [last ++ ['.', ' '] ++ trimSpace r]) ∧
    (toLower tbl (afterLastSpace (trimSpace last)) ++ ['.'] ∉ listedAbbreviations →
      splitStep tbl (init ++ [last]) i r = init ++ [last] ++ [trimSpace r]) := by
  simp only [splitStep, List.getLast?_append, List.getLast?_singleton, Option.or,
    List.dropLast_concat, hi, true_and, endsWithAbbreviation_iff]
  constructor
  · intro h; rw [if_pos h]
  · intro h; rw [if_neg h]

/-- Witness of `splitStep_merges_iff`: the second fragment of "Ver el art. 5". -/
theorem splitStep_merges_iff_witness :
    0 < 1 ∧
    (toLower id (afterLastSpace (trimSpace "Ver el art".toList)) ++ ['.'] ∈ listedAbbreviations →
      splitStep id ([] ++ ["Ver el art".toList]) 1 " 5".toList
        = [] ++ ["Ver el art".toList ++ ['.', ' '] ++ trimSpace " 5".toList]) ∧
    (toLower id (afterLastSpace (trimSpace "Ver el art".toList)) ++ ['.'] ∉ listedAbbreviations →
      splitStep id ([] ++ ["Ver el art".toList]) 1 " 5".toList
        = [] ++ ["Ver el art".toList] ++ [trimSpace " 5".toList]) :=
  ⟨by decide, splitStep_merges_iff id [] "Ver el art".toList 1 " 5".toList (by decide)⟩

/-- C18: the query path on the tokens of the indexed unit `k` returns exactly
`vectors[k]`. -/
theorem query_path_rebuilds_unit_vector (sentences : List (List GoString)) (k : Nat)
    (hk : k < sentences.length) :
    ∃ vectors vocab df v,
      tfidf Real.log Real.sqrt sentences = some (vectors, vocab, df) ∧
      vectors[k]? = some v ∧
      queryVector Real.log Real.sqrt vocab df sentences.length sentences[k] = some v := by
  obtain ⟨raws, df, hs, hall⟩ := tfidf_spec Real.log Real.sqrt sentences
  obtain ⟨raw, hraw, hrc⟩ := forall₂_getElem? _ _ _ hall k sentences[k]
    (List.getElem?_eq_getElem hk)
  refine ⟨_, _, df, _, hs, ?_, queryVector_of_rawCount Real.log Real.sqrt (buildVocab sentences)
    (buildVocab_ok sentences) df sentences.length sentences[k]
    (buildVocab_known sentences _ (List.getElem_mem _)) raw hrc⟩
  simp [hraw]

/-- Witness of `query_path_rebuilds_unit_vector` on two units. -/
theorem query_path_rebuilds_unit_vector_witness :
    1 < [["casa".toList, "roja".toList], ["casa".toList]].length ∧
    ∃ vectors vocab df v,
      tfidf Real.log Real.sqrt [["casa".toList, "roja".toList], ["casa".toList]]
        = some (vectors, vocab, df) ∧
      vectors[1]? = some v ∧
      queryVector Real.log Real.sqrt vocab df
        [["casa".toList, "roja".toList], ["casa".toList]].length
        ([["casa".toList, "roja".toList], ["casa".toList]].get ⟨1, by decide⟩) = some v :=
  ⟨by decide,
    query_path_rebuilds_unit_vector [["casa".toList, "roja".toList], ["casa".toList]] 1
      (by decide)⟩

theorem byteLen_ge_length (s : GoString) : s.length ≤ byteLen s := by
  unfold byteLen
  induction s with
  | nil => simp
  | cons c cs ih =>
    simp only [List.map_cons, List.sum_cons, List.length_cons]
    have := Char.utf8Size_pos c
    omega

theorem mem_filterUnits (sentences : List GoString) (u : GoString) :
    u ∈ filterUnits sentences ↔ ∃ s ∈ sentences, u = trimSpace s ∧ 20 < byteLen u := by
  simp only [filterUnits, List.mem_filter, List.mem_map, decide_eq_true_eq]
  constructor
  · rintro ⟨⟨s, hs, rfl⟩, hlen⟩
    exact ⟨s, hs, rfl, hlen⟩
  · rintro ⟨s, hs, rfl, hlen⟩
    exact ⟨⟨s, hs, rfl⟩, hlen⟩

/-- C13 (as stated, refuted): a unit of eleven characters is retained, because
its UTF-8 encoding has 22 bytes. -/
theorem short_unit_retained :
    (trimSpace "ááááááááááá".toList).length = 11 ∧
    filterUnits ["ááááááááááá".toList] = ["ááááááááááá".toList] := by
  constructor
  · decide
  · decide

/-- C13 (as amended): a segmented unit is retained for indexing if and only if
the length of its trimmed text exceeds 20 counted in bytes of UTF-8; so every
unit of more than 20 characters is retained and no unit of 20 bytes or fewer is. -/
theorem filterUnits_by_byte_length (sentences : List GoString) :
    (∀ u, u ∈ filterUnits sentences ↔ ∃ s ∈ sentences, u = trimSpace s ∧ 20 < byteLen u) ∧
    (∀ s ∈ sentences, 20 < (trimSpace s).length → trimSpace s ∈ filterUnits sentences) ∧
    (∀ u ∈ filterUnits sentences, 20 < byteLen u) := by
  refine ⟨mem_filterUnits sentences, ?_, ?_⟩
  · intro s hs hlen
    exact (mem_filterUnits sentences _).2
      ⟨s, hs, rfl, lt_of_lt_of_le hlen (byteLen_ge_length _)⟩
  · intro u hu
    obtain ⟨_, _, _, h⟩ := (mem_filterUnits sentences u).1 hu
    exact h

theorem lastIndexFrom_spec (xs : List Char) :
    ∀ (pre : List Char) (last : Int), -1 ≤ last → last < pre.length →
      pre.drop (last + 1).toNat = pre.rtakeWhile (fun c => c != ' ') →
      -1 ≤ lastIndexFrom xs pre.length last ∧
      lastIndexFrom xs pre.length last < (pre ++ xs).length ∧
      (pre ++ xs).drop (lastIndexFrom xs pre.length last + 1).toNat
        = (pre ++ xs).rtakeWhile (fun c => c != ' ') := by
  induction xs with
  | nil =>
    intro pre last h1 h2 h3
    simp only [lastIndexFrom, List.append_nil]
    exact ⟨h1, h2, h3⟩
  | cons x xs ih =>
    intro pre last h1 h2 h3
    have hlen : ((pre ++ [x]).length : Int) = (pre.length : Int) + 1 := by simp
    have key := ih (pre ++ [x]) (if x = ' ' then (pre.length : Int) else last)
      (by split_ifs <;> omega) (by rw [hlen]; split_ifs <;> omega)
      (by
        by_cases hx : x = ' '
        · subst hx
          simp only [if_true, List.rtakeWhile_concat]
          have : ((pre.length : Int) + 1).toNat = pre.length + 1 := by omega
          rw [this]
          simp
        · simp only [hx, if_false, List.rtakeWhile_concat]
          have hx' : (x != ' ') = true := by simpa using hx
          simp only [hx', if_true]
          rw [← h3, List.drop_append_of_le_length (by omega)])
    simp only [lastIndexFrom]
    rw [hlen] at key
    simpa only [List.append_assoc, List.singleton_append] using key

theorem sliceFrom_lastIndexSpace (prev : GoString) :
    sliceFrom prev (lastIndexSpace prev + 1) = some (afterLastSpace prev) := by
  have h := lastIndexFrom_spec prev [] (-1) (le_refl _) (by simp) (by simp)
  simp only [List.length_nil, Nat.cast_zero, List.nil_append] at h
  obtain ⟨h1, h2, h3⟩ := h
  unfold sliceFrom lastIndexSpace afterLastSpace
  rw [if_pos ⟨by omega, by omega⟩, h3]

/-! ## Ranking: totality, bounds and the sorted list -/

theorem queryCount_inv {α : Type} [LinearOrderedField α] (vocab : Vocab) (hv : VocabOK vocab)
    (q : List α) (w : GoString) (hq : q.length = vocab.length ∧ ∀ x ∈ q, 0 ≤ x) :
    ∃ q', queryCount vocab q w = some q' ∧ (q'.length = vocab.length ∧ ∀ x ∈ q', 0 ≤ x) := by
  unfold queryCount
  cases hl : vocab.lookup w with
  | none => exact ⟨q, rfl, hq⟩
  | some idx =>
    have hlt : idx < q.length := by rw [hq.1]; exact lookup_lt vocab hv w idx hl
    refine ⟨_, bump_of_lt q idx hlt, by simp [hq.1], ?_⟩
    exact nonneg_of_mem_set _ _ _ hq.2 (add_nonneg (hq.2 _ (List.getElem_mem _)) zero_le_one)

/-- The query path returns on every token list: the raw counts are non-negative,
one per vocabulary entry, and are weighted and normalised as at index time. -/
theorem queryVector_some {α : Type} [LinearOrderedField α] (log sqrt : α → α)
    (vocab : Vocab) (hv : VocabOK vocab) (df : Nat → Nat) (n : Nat) (query : List GoString) :
    ∃ counts : List α, counts.length = vocab.length ∧ (∀ x ∈ counts, 0 ≤ x) ∧
      queryVector log sqrt vocab df n query
        = some (normalize sqrt (weightFrom log n df 0 counts)) := by
  obtain ⟨counts, hc, hlen, hnn⟩ := foldlM_inv (queryCount (α := α) vocab)
    (fun q => q.length = vocab.length ∧ ∀ x ∈ q, 0 ≤ x) query
    (fun b hb w _ => queryCount_inv vocab hv b w hb)
    (List.replicate vocab.length 0)
    ⟨by simp, fun x hx => by rw [List.eq_of_mem_replicate hx]⟩
  refine ⟨counts, hlen, hnn, ?_⟩
  unfold queryVector
  rw [hc]
  simp only [queryScale_vocab log n df vocab hv counts hlen]

theorem dot_nonneg_of_slots {α : Type} [LinearOrderedField α] (a : List α) :
    ∀ b : List α, (∀ (j : Nat) (x y : α), a[j]? = some x → b[j]? = some y → 0 ≤ x * y) →
      0 ≤ dot a b := by
  induction a with
  | nil => intro b _; simp [dot_nil_left]
  | cons x a ih =>
    intro b h
    cases b with
    | nil => simp [dot]
    | cons y b =>
      rw [dot_cons]
      apply add_nonneg (h 0 x y (by simp) (by simp))
      exact ih b (fun j x' y' hx hy => h (j + 1) x' y' (by simpa using hx) (by simpa using hy))

theorem weighted_slot (n : Nat) (df : Nat → Nat) (raw : List ℝ) (hnn : ∀ x ∈ raw, 0 ≤ x)
    (j : Nat) (y : ℝ)
    (h : (normalize Real.sqrt (weightFrom Real.log n df 0 raw))[j]? = some y) :
    ∃ r c, 0 ≤ r ∧ 0 ≤ c ∧ y = (if 0 < r then r * idf Real.log n df j else r) / c := by
  obtain ⟨x, c, hx, hc, rfl⟩ := normalize_getElem? _ j y h
  obtain ⟨r, hr, rfl⟩ := weightFrom_getElem? _ _ _ _ 0 j x hx
  rw [zero_add]
  exact ⟨r, c, hnn r (List.getElem?_mem hr), hc, rfl⟩

theorem weighted_dot_nonneg (n : Nat) (df : Nat → Nat) (raw₁ raw₂ : List ℝ)
    (h₁ : ∀ x ∈ raw₁, 0 ≤ x) (h₂ : ∀ x ∈ raw₂, 0 ≤ x) :
    0 ≤ dot (normalize Real.sqrt (weightFrom Real.log n df 0 raw₁))
      (normalize Real.sqrt (weightFrom Real.log n df 0 raw₂)) := by
  apply dot_nonneg_of_slots
  intro j x y hx hy
  obtain ⟨r, c, hr, hc, rfl⟩ := weighted_slot n df raw₁ h₁ j x hx
  obtain ⟨s, d, hs, hd, rfl⟩ := weighted_slot n df raw₂ h₂ j y hy
  rw [div_mul_div_comm]
  apply div_nonneg _ (mul_nonneg hc hd)
  split_ifs with hr0 hs0 hs0
  · have : r * idf Real.log n df j * (s * idf Real.log n df j)
        = (r * s) * (idf Real.log n df j * idf Real.log n df j) := by ring
    rw [this]
    exact mul_nonneg (mul_nonneg hr hs) (mul_self_nonneg _)
  · have : s = 0 := le_antisymm (not_lt.1 hs0) hs
    simp [this]
  · have : r = 0 := le_antisymm (not_lt.1 hr0) hr
    simp [this]
  · exact mul_nonneg hr hs

theorem cosine_nonneg_of_dot (a b : List ℝ) (h : a.length = b.length) (hd : 0 ≤ dot a b) :
    ∃ c, cosine Real.sqrt a b = some c ∧ 0 ≤ c ∧ c ≤ 1 := by
  obtain ⟨c, hc, hle⟩ := cosine_le_one a b h
  refine ⟨c, hc, ?_, hle⟩
  rw [cosine_eq Real.sqrt a b h] at hc
  split_ifs at hc
  · cases hc; exact le_refl _
  · cases hc
    exact div_nonneg hd (mul_nonneg (Real.sqrt_nonneg _) (Real.sqrt_nonneg _))

/-- Every score of a query against an index built by `tfidf` exists and lies in
`[0, 1]`. -/
theorem scores_in_unit_interval (sentences : List (List GoString)) (query : List GoString) :
    ∃ vectors vocab df qVec,
      tfidf Real.log Real.sqrt sentences = some (vectors, vocab, df) ∧
      vocab = buildVocab sentences ∧
      queryVector Real.log Real.sqrt vocab df sentences.length query = some qVec ∧
      qVec.length = vocab.length ∧
      ∀ v ∈ vectors, ∃ s, cosine Real.sqrt v qVec = some s ∧ 0 ≤ s ∧ s ≤ 1 := by
  obtain ⟨raws, df, hs, hall⟩ := tfidf_spec Real.log Real.sqrt sentences
  obtain ⟨_, _, hlen⟩ := tfidf_lengths Real.log Real.sqrt sentences _ _ _ hs
  obtain ⟨counts, hcl, hcn, hq⟩ := queryVector_some Real.log Real.sqrt (buildVocab sentences)
    (buildVocab_ok sentences) df sentences.length query
  have hql : (normalize Real.sqrt (weightFrom Real.log sentences.length df 0 counts)).length
      = (buildVocab sentences).length := by
    rw [normalize_length, weightFrom_length, hcl]
  refine ⟨_, _, df, _, hs, rfl, hq, hql, ?_⟩
  intro v hv
  have hvl := hlen v hv
  obtain ⟨raw, hraw, rfl⟩ := List.mem_map.1 hv
  obtain ⟨sent, hsent, hrc⟩ := forall₂_mem_right _ _ _ hall raw hraw
  have hnn := (rawCount_inv _ (buildVocab_ok sentences) sent
    (buildVocab_known sentences sent hsent) raw hrc).2
  exact cosine_nonneg_of_dot _ _ (by rw [hvl, hql])
    (weighted_dot_nonneg sentences.length df raw counts hnn hcn)

theorem forall₂_mem_left {β γ : Type} (R : β → γ → Prop) (l₁ : List β) (l₂ : List γ)
    (h : List.Forall₂ R l₁ l₂) : ∀ x ∈ l₁, ∃ y ∈ l₂, R x y := by
  induction h with
  | nil => intro x hx; simp at hx
  | cons hh _ ih =>
    intro x hx
    rcases List.mem_cons.1 hx with h1 | h1
    · subst h1; exact ⟨_, List.mem_cons_self _ _, hh⟩
    · obtain ⟨y, hy, hr⟩ := ih x h1
      exact ⟨y, List.mem_cons_of_mem _ hy, hr⟩

theorem insertByScore_perm {α : Type} [LinearOrderedField α] (r : Result α)
    (l : List (Result α)) : (insertByScore r l).Perm (r :: l) := by
  induction l with
  | nil => exact List.Perm.refl _
  | cons x xs ih =>
    simp only [insertByScore]
    split_ifs
    · exact List.Perm.refl _
    · exact ((List.Perm.cons x ih).trans (List.Perm.swap r x xs))

theorem insertByScore_sorted {α : Type} [LinearOrderedField α] (r : Result α)
    (l : List (Result α)) (h : l.Pairwise (fun a b => ¬ b.Score > a.Score)) :
    (insertByScore r l).Pairwise (fun a b => ¬ b.Score > a.Score) := by
  induction l with
  | nil => simp [insertByScore]
  | cons x xs ih =>
    obtain ⟨hx, hxs⟩ := List.pairwise_cons.1 h
    simp only [insertByScore]
    split_ifs with hgt
    · refine List.pairwise_cons.2 ⟨?_, h⟩
      intro y hy
      rcases List.mem_cons.1 hy with h1 | h1
      · rw [h1]; exact not_lt.2 (le_of_lt hgt)
      · exact not_lt.2 (le_trans (not_lt.1 (hx y h1)) (le_of_lt hgt))
    · refine List.pairwise_cons.2 ⟨?_, ih hxs⟩
      intro y hy
      rcases List.mem_cons.1 ((insertByScore_perm r xs).subset hy) with h1 | h1
      · rw [h1]; exact hgt
      · exact hx y h1

theorem sortFold_spec {α : Type} [LinearOrderedField α] (l : List (Result α)) :
    ∀ acc : List (Result α), acc.Pairwise (fun a b => ¬ b.Score > a.Score) →
      (l.foldl (fun sorted r => insertByScore r sorted) acc).Perm (acc ++ l) ∧
      (l.foldl (fun sorted r => insertByScore r sorted) acc).Pairwise
        (fun a b => ¬ b.Score > a.Score) := by
  induction l with
  | nil => intro acc h; simpa using h
  | cons r l ih =>
    intro acc h
    obtain ⟨hp, hs⟩ := ih (insertByScore r acc) (insertByScore_sorted r acc h)
    refine ⟨?_, hs⟩
    rw [List.foldl_cons]
    refine hp.trans ?_
    refine ((insertByScore_perm r acc).append_right l).trans ?_
    simp only [List.cons_append]
    exact List.perm_middle.symm

/-- The sort returns a rearrangement of the results in which no later entry has
a greater score than an earlier one. -/
theorem sortByScore_spec {α : Type} [LinearOrderedField α] (results : List (Result α)) :
    SortedByScore results (sortByScore results) := by
  have h := sortFold_spec results [] List.Pairwise.nil
  simpa [sortByScore, SortedByScore] using h

theorem sorted_head_max {α : Type} [LinearOrderedField α] (results sorted : List (Result α))
    (h : SortedByScore results sorted) :
    ∀ r ∈ results, ∃ top rest, sorted = top :: rest ∧ r.Score ≤ top.Score := by
  intro r hr
  have hmem : r ∈ sorted := h.1.symm.subset hr
  cases sorted with
  | nil => simp at hmem
  | cons top rest =>
    refine ⟨top, rest, rfl, ?_⟩
    rcases List.mem_cons.1 hmem with h1 | h1
    · rw [h1]
    · exact not_lt.1 ((List.pairwise_cons.1 h.2).1 r h1)

/-- C16: indexing and the query path return on every input and every cosine of
a document vector and the query vector returns: each vocabulary index is below
`|vocabulary|`, each document vector and the query vector have `|vocabulary|`
slots; and the slice of line 134 of `splitIntoSentences` is in range on every
string. -/
theorem vectorization_and_ranking_total {α : Type} [LinearOrderedField α] (log sqrt : α → α)
    (sentences : List (List GoString)) (query : List GoString) :
    (∃ vectors vocab df qVec,
      tfidf log sqrt sentences = some (vectors, vocab, df) ∧
      queryVector log sqrt vocab df sentences.length query = some qVec ∧
      (∀ w i, vocab.lookup w = some i → i < vocab.length) ∧
      (∀ v ∈ vectors, v.length = vocab.length) ∧
      qVec.length = vocab.length ∧
      ∀ v ∈ vectors, ∃ s, cosine sqrt v qVec = some s) ∧
    ∀ prev : GoString, sliceFrom prev (lastIndexSpace prev + 1) = some (afterLastSpace prev) := by
  refine ⟨?_, sliceFrom_lastIndexSpace⟩
  obtain ⟨raws, df, hs, _⟩ := tfidf_spec log sqrt sentences
  obtain ⟨_, _, hlen⟩ := tfidf_lengths log sqrt sentences _ _ _ hs
  obtain ⟨counts, hcl, _, hq⟩ := queryVector_some log sqrt (buildVocab sentences)
    (buildVocab_ok sentences) df sentences.length query
  have hql : (normalize sqrt (weightFrom log sentences.length df 0 counts)).length
      = (buildVocab sentences).length := by
    rw [normalize_length, weightFrom_length, hcl]
  refine ⟨_, _, df, _, hs, hq, lookup_lt _ (buildVocab_ok sentences), hlen, hql, ?_⟩
  intro v hv
  rw [cosine_eq sqrt v _ (by rw [hlen v hv, hql])]
  split_ifs
  · exact ⟨_, rfl⟩
  · exact ⟨_, rfl⟩

/-- C19: the sorted result list is a permutation of the per-unit results and its
first entry carries a score at least as high as the cosine score of every
indexed unit; the same holds for every other arrangement by descending score,
whichever way equal scores are ordered. -/
theorem sorted_top_is_maximum (sentences : List (List GoString)) (query texts : List GoString)
    (ht : texts.length = sentences.length) :
    ∃ vectors vocab df qVec results,
      tfidf Real.log Real.sqrt sentences = some (vectors, vocab, df) ∧
      queryVector Real.log Real.sqrt vocab df sentences.length query = some qVec ∧
      rank Real.sqrt vectors qVec texts = some results ∧
      List.Forall₂ (fun v r => cosine Real.sqrt v qVec = some r.Score) vectors results ∧
      (sortByScore results).Perm results ∧
      (∀ v ∈ vectors, ∃ s top rest, cosine Real.sqrt v qVec = some s ∧
        sortByScore results = top :: rest ∧ s ≤ top.Score) ∧
      ∀ sorted, SortedByScore results sorted →
        ∀ v ∈ vectors, ∃ s top rest, cosine Real.sqrt v qVec = some s ∧
          sorted = top :: rest ∧ s ≤ top.Score := by
  obtain ⟨vectors, vocab, df, qVec, hs, _, hq, _, hcos⟩ :=
    scores_in_unit_interval sentences query
  obtain ⟨_, hvl, _⟩ := tfidf_lengths Real.log Real.sqrt sentences _ _ _ hs
  obtain ⟨results, hr, hfa⟩ := rankFrom_some Real.sqrt qVec texts vectors 0
    (fun v hv => by obtain ⟨s, h, _⟩ := hcos v hv; rw [h]; rfl) (by rw [hvl, ht]; omega)
  have key : ∀ sorted, SortedByScore results sorted →
      ∀ v ∈ vectors, ∃ s top rest, cosine Real.sqrt v qVec = some s ∧
        sorted = top :: rest ∧ s ≤ top.Score := by
    intro sorted hsorted v hv
    obtain ⟨r, hrmem, hvr⟩ := forall₂_mem_left _ _ _ hfa v hv
    obtain ⟨top, rest, h1, h2⟩ := sorted_head_max results sorted hsorted r hrmem
    exact ⟨r.Score, top, rest, hvr, h1, h2⟩
  exact ⟨vectors, vocab, df, qVec, results, hs, hq, hr, hfa, (sortByScore_spec results).1,
    key _ (sortByScore_spec results), key⟩

/-- Witness of `sorted_top_is_maximum`: three units with their texts; the query
scores highest against the second unit. -/
theorem sorted_top_is_maximum_witness :
    ["La casa roja".toList, "Un perro rojo".toList, "El gato".toList].length
      = [["casa".toList, "roja".toList], ["roja".toList, "perro".toList],
          ["gato".toList]].length ∧
    ∃ vectors vocab df qVec results,
      tfidf Real.log Real.sqrt [["casa".toList, "roja".toList],
        ["roja".toList, "perro".toList], ["gato".toList]] = some (vectors, vocab, df) ∧
      queryVector Real.log Real.sqrt vocab df
        [["casa".toList, "roja".toList], ["roja".toList, "perro".toList],
          ["gato".toList]].length
        ["perro".toList, "perro".toList, "casa".toList] = some qVec ∧
      rank Real.sqrt vectors qVec
        ["La casa roja".toList, "Un perro rojo".toList, "El gato".toList] = some results ∧
      List.Forall₂ (fun v r => cosine Real.sqrt v qVec = some r.Score) vectors results ∧
      (sortByScore results).Perm results ∧
      (∀ v ∈ vectors, ∃ s top rest, cosine Real.sqrt v qVec = some s ∧
        sortByScore results = top :: rest ∧ s ≤ top.Score) ∧
      ∀ sorted, SortedByScore results sorted →
        ∀ v ∈ vectors, ∃ s top rest, cosine Real.sqrt v qVec = some s ∧
          sorted = top :: rest ∧ s ≤ top.Score :=
  ⟨by decide,
    sorted_top_is_maximum
      [["casa".toList, "roja".toList], ["roja".toList, "perro".toList], ["gato".toList]]
      ["perro".toList, "perro".toList, "casa".toList]
      ["La casa roja".toList, "Un perro rojo".toList, "El gato".toList] (by decide)⟩

/-- C20: every cosine score of a query vector against a document vector of an
index built by `tfidf` lies in the closed interval `[0, 1]`. -/
theorem cosine_score_in_unit_interval (sentences : List (List GoString))
    (query : List GoString) :
    ∃ vectors vocab df qVec,
      tfidf Real.log Real.sqrt sentences = some (vectors, vocab, df) ∧
      queryVector Real.log Real.sqrt vocab df sentences.length query = some qVec ∧
      ∀ v ∈ vectors, ∃ s, cosine Real.sqrt v qVec = some s ∧ 0 ≤ s ∧ s ≤ 1 := by
  obtain ⟨vectors, vocab, df, qVec, hs, _, hq, _, hcos⟩ :=
    scores_in_unit_interval sentences query
  exact ⟨vectors, vocab, df, qVec, hs, hq, hcos⟩


/-! ## The vocabulary as a bijection -/

theorem lookup_isSome_iff_mem_keys (v : Vocab) (w : GoString) :
    (v.lookup w).isSome = true ↔ w ∈ v.map Prod.fst := by
  rw [List.lookup_isSome_iff]
  simp only [beq_iff_eq, List.mem_map]
  constructor
  · rintro ⟨p, hp, h⟩; exact ⟨p, hp, h.symm⟩
  · rintro ⟨p, hp, h⟩; exact ⟨p, hp, h.symm⟩

theorem keys_insert (v : Vocab) (w : GoString) :
    (vocabInsert v w).map Prod.fst
      = if w ∈ v.map Prod.fst then v.map Prod.fst else v.map Prod.fst ++ [w] := by
  unfold vocabInsert
  by_cases h : w ∈ v.map Prod.fst
  · rw [if_pos ((lookup_isSome_iff_mem_keys v w).2 h), if_pos h]
  · rw [if_neg (fun hs => h ((lookup_isSome_iff_mem_keys v w).1 hs)), if_neg h]
    simp

theorem keys_nodup_foldl (ws : List GoString) :
    ∀ v : Vocab, (v.map Prod.fst).Nodup → ((ws.foldl vocabInsert v).map Prod.fst).Nodup := by
  induction ws with
  | nil => intro v h; exact h
  | cons w ws ih =>
    intro v h
    apply ih
    rw [keys_insert]
    split_ifs with hw
    · exact h
    · exact List.Nodup.append h (List.nodup_singleton w) (by simpa using hw)

theorem mem_keys_foldl (ws : List GoString) (w' : GoString) :
    ∀ v : Vocab, w' ∈ (ws.foldl vocabInsert v).map Prod.fst ↔ w' ∈ v.map Prod.fst ∨ w' ∈ ws := by
  induction ws with
  | nil => intro v; simp
  | cons w ws ih =>
    intro v
    rw [List.foldl_cons, ih, keys_insert]
    split_ifs with hw
    · constructor
      · rintro (h | h)
        · exact Or.inl h
        · exact Or.inr (List.mem_cons_of_mem _ h)
      · rintro (h | h)
        · exact Or.inl h
        · rcases List.mem_cons.1 h with h1 | h1
          · subst h1; exact Or.inl hw
          · exact Or.inr h1
    · simp only [List.mem_append, List.mem_singleton, List.mem_cons]
      tauto

theorem mem_of_lookup (v : Vocab) (w : GoString) (i : Nat) (h : v.lookup w = some i) :
    (w, i) ∈ v := by
  obtain ⟨l₁, l₂, hv, _⟩ := List.lookup_eq_some_iff.1 h
  rw [hv]; simp

theorem lookup_of_mem (v : Vocab) (hn : (v.map Prod.fst).Nodup) (w : GoString) (i : Nat)
    (h : (w, i) ∈ v) : v.lookup w = some i := by
  obtain ⟨l₁, l₂, hv⟩ := List.append_of_mem h
  apply List.lookup_eq_some_iff.2
  refine ⟨l₁, l₂, hv, ?_⟩
  intro p hp
  rw [hv] at hn
  simp only [List.map_append, List.map_cons] at hn
  have hd := (List.nodup_append.1 hn).2.2
  have : p.1 ≠ w := fun hpw => hd (List.mem_map_of_mem Prod.fst hp) (by simp [hpw])
  simpa using fun hwp => this hwp.symm

theorem lookup_insert_eq (v : Vocab) (w w' : GoString) (i : Nat)
    (h : v.lookup w' = some i) : (vocabInsert v w).lookup w' = some i := by
  unfold vocabInsert
  split_ifs
  · exact h
  · simp [List.lookup_append, h]

theorem lookup_foldl_eq (ws : List GoString) (w' : GoString) (i : Nat) :
    ∀ v : Vocab, v.lookup w' = some i → (ws.foldl vocabInsert v).lookup w' = some i := by
  induction ws with
  | nil => intro v h; exact h
  | cons w ws ih => intro v h; exact ih _ (lookup_insert_eq v w w' i h)

theorem lookup_insert_new (v : Vocab) (w : GoString) (h : v.lookup w = none) :
    (vocabInsert v w).lookup w = some v.length := by
  unfold vocabInsert
  simp [h, List.lookup_append]

theorem lookup_inj (v : Vocab) (hv : VocabOK v) (u w : GoString) (i : Nat)
    (hu : v.lookup u = some i) (hw : v.lookup w = some i) : u = w := by
  have hnd : (v.map Prod.snd).Nodup := by rw [hv]; exact List.nodup_range _
  have := List.inj_on_of_nodup_map hnd (mem_of_lookup v u i hu) (mem_of_lookup v w i hw) rfl
  exact (Prod.mk.inj this).1

theorem lookup_surj (v : Vocab) (hv : VocabOK v) (hn : (v.map Prod.fst).Nodup) (i : Nat)
    (hi : i < v.length) : ∃ w, v.lookup w = some i := by
  have hsnd : (v[i]).2 = i := by
    have h1 : (v.map Prod.snd)[i]? = some (v[i]).2 := by simp [List.getElem?_eq_getElem hi]
    rw [hv, List.getElem?_range hi] at h1
    exact (Option.some.inj h1).symm
  refine ⟨(v[i]).1, lookup_of_mem v hn _ _ ?_⟩
  have hm : v[i] ∈ v := List.getElem_mem _
  have he : v[i] = ((v[i]).1, i) := Prod.ext rfl hsnd
  rw [he] at hm
  exact hm

theorem first_occurrence_split (l : List GoString) (w : GoString) (h : w ∈ l) :
    ∃ pre post, l = pre ++ w :: post ∧ w ∉ pre := by
  induction l with
  | nil => simp at h
  | cons x xs ih =>
    by_cases hx : x = w
    · subst hx; exact ⟨[], xs, rfl, by simp⟩
    · rcases List.mem_cons.1 h with h1 | h1
      · exact absurd h1.symm hx
      · obtain ⟨pre, post, hl, hn⟩ := ih h1
        refine ⟨x :: pre, post, by rw [hl]; rfl, ?_⟩
        simp only [List.mem_cons, not_or]
        exact ⟨fun hw => hx hw.symm, hn⟩

theorem split_of_indexOf_lt (l : List GoString) (u w : GoString) (hw : w ∈ l)
    (h : l.indexOf u < l.indexOf w) :
    ∃ pre post, l = pre ++ w :: post ∧ u ∈ pre ∧ w ∉ pre := by
  induction l with
  | nil => simp at hw
  | cons x xs ih =>
    rw [List.indexOf_cons, List.indexOf_cons] at h
    by_cases hxw : x = w
    · simp [hxw] at h
    · have hw' : w ∈ xs := by
        rcases List.mem_cons.1 hw with h1 | h1
        · exact absurd h1.symm hxw
        · exact h1
      by_cases hxu : x = u
      · obtain ⟨pre, post, hl, hn⟩ := first_occurrence_split xs w hw'
        refine ⟨x :: pre, post, by rw [hl]; rfl, by simp [hxu], ?_⟩
        simp only [List.mem_cons, not_or]
        exact ⟨fun hh => hxw hh.symm, hn⟩
      · have e₁ : (x == w) = false := beq_false_of_ne hxw
        have e₂ : (x == u) = false := beq_false_of_ne hxu
        rw [e₁, e₂] at h
        simp only [cond_false, Nat.add_lt_add_iff_right] at h
        obtain ⟨pre, post, hl, hu, hn⟩ := ih hw' h
        refine ⟨x :: pre, post, by rw [hl]; rfl, List.mem_cons_of_mem _ hu, ?_⟩
        simp only [List.mem_cons, not_or]
        exact ⟨fun hh => hxw hh.symm, hn⟩

theorem lookup_order (pre post : List GoString) (u w : GoString) (hu : u ∈ pre) (hw : w ∉ pre)
    (iu iw : Nat)
    (h₁ : ((pre ++ w :: post).foldl vocabInsert []).lookup u = some iu)
    (h₂ : ((pre ++ w :: post).foldl vocabInsert []).lookup w = some iw) : iu < iw := by
  rw [List.foldl_append, List.foldl_cons] at h₁ h₂
  have hok : VocabOK (pre.foldl vocabInsert []) := vocabOK_foldl pre [] rfl
  obtain ⟨a, ha⟩ := Option.isSome_iff_exists.1 (lookup_foldl_mem pre u [] hu)
  have halt := lookup_lt _ hok u a ha
  have hnone : (pre.foldl vocabInsert []).lookup w = none := by
    cases hl : (pre.foldl vocabInsert []).lookup w with
    | none => rfl
    | some i =>
      have : w ∈ (pre.foldl vocabInsert []).map Prod.fst :=
        (lookup_isSome_iff_mem_keys _ w).1 (by rw [hl]; rfl)
      rcases (mem_keys_foldl pre w []).1 this with h | h
      · simp at h
      · exact absurd h hw
  have e₁ := lookup_foldl_eq post u a _ (lookup_insert_eq _ w u a ha)
  have e₂ := lookup_foldl_eq post w _ _ (lookup_insert_new _ w hnone)
  rw [e₁] at h₁
  rw [e₂] at h₂
  cases h₁
  cases h₂
  exact halt

/-- C12: the vocabulary returned by `tfidf` maps exactly the tokens that occur in
the units, one to one, onto `0 .. |vocabulary| - 1`, and a token whose first
occurrence in the scan comes earlier has the smaller index. -/
theorem vocabulary_bijection (sentences : List (List GoString)) :
    ∃ vectors vocab df, tfidf Real.log Real.sqrt sentences = some (vectors, vocab, df) ∧
      (∀ w, (vocab.lookup w).isSome = true ↔ w ∈ sentences.flatten) ∧
      (∀ w i, vocab.lookup w = some i → i < vocab.length) ∧
      (∀ u w i, vocab.lookup u = some i → vocab.lookup w = some i → u = w) ∧
      (∀ i, i < vocab.length → ∃ w, vocab.lookup w = some i) ∧
      (∀ u w iu iw, w ∈ sentences.flatten →
        sentences.flatten.indexOf u < sentences.flatten.indexOf w →
        vocab.lookup u = some iu → vocab.lookup w = some iw → iu < iw) := by
  obtain ⟨raws, df, hs, _⟩ := tfidf_spec Real.log Real.sqrt sentences
  have hok := buildVocab_ok sentences
  have hnd : ((buildVocab sentences).map Prod.fst).Nodup := by
    rw [buildVocab_eq]; exact keys_nodup_foldl _ [] (by simp)
  refine ⟨_, _, df, hs, ?_, lookup_lt _ hok, lookup_inj _ hok, lookup_surj _ hok hnd, ?_⟩
  · intro w
    rw [lookup_isSome_iff_mem_keys, buildVocab_eq, mem_keys_foldl]
    simp
  · intro u w iu iw hw hlt h₁ h₂
    obtain ⟨pre, post, hl, hu, hn⟩ := split_of_indexOf_lt _ u w hw hlt
    rw [buildVocab_eq, hl] at h₁ h₂
    exact lookup_order pre post u w hu hn iu iw h₁ h₂

/-! ## Raw counts and document frequencies -/

theorem countStep_eq {α : Type} [LinearOrderedField α] (vocab : Vocab) (st st' : List α × List Nat)
    (w : GoString) (h : countStep vocab st w = some st') :
    ∃ y, st.1[vocabIndex vocab w]? = some y ∧
      st' = (st.1.set (vocabIndex vocab w) (y + 1),
        if st.2.contains (vocabIndex vocab w) then st.2 else st.2 ++ [vocabIndex vocab w]) := by
  unfold countStep bump at h
  cases hy : st.1[vocabIndex vocab w]? with
  | none => simp [hy] at h
  | some y =>
    simp only [hy, Option.some.injEq] at h
    exact ⟨y, rfl, h.symm⟩

theorem contains_nat_iff (l : List Nat) (x : Nat) : l.contains x = true ↔ x ∈ l := by
  simp [List.contains]

theorem countFold_seen {α : Type} [LinearOrderedField α] (vocab : Vocab)
    (sent : List GoString) :
    ∀ st st' : List α × List Nat, sent.foldlM (countStep vocab) st = some st' →
      st.2.Nodup →
      st'.2.Nodup ∧
        ∀ idx, idx ∈ st'.2 ↔ idx ∈ st.2 ∨ ∃ w ∈ sent, vocabIndex vocab w = idx := by
  induction sent with
  | nil =>
    intro st st' h hn
    simp only [List.foldlM_nil, Option.pure_def, Option.some.injEq] at h
    subst h
    exact ⟨hn, by simp⟩
  | cons w ws ih =>
    intro st st' h hn
    simp only [List.foldlM_cons, Option.bind_eq_bind] at h
    cases hc : countStep vocab st w with
    | none => simp [hc] at h
    | some st₁ =>
      simp only [hc, Option.some_bind] at h
      obtain ⟨y, _, hst₁⟩ := countStep_eq vocab st st₁ w hc
      have hn₁ : st₁.2.Nodup := by
        rw [hst₁]
        by_cases hm : vocabIndex vocab w ∈ st.2
        · simp only [(contains_nat_iff _ _).2 hm, if_true]
          exact hn
        · have hc : st.2.contains (vocabIndex vocab w) = false := by
            simpa [List.contains] using hm
          simp only [hc, Bool.false_eq_true, if_false]
          exact List.Nodup.append hn (List.nodup_singleton _) (by simpa using hm)
      have hmem₁ : ∀ idx, idx ∈ st₁.2 ↔ idx ∈ st.2 ∨ idx = vocabIndex vocab w := by
        intro idx
        rw [hst₁]
        by_cases hm : vocabIndex vocab w ∈ st.2
        · simp only [(contains_nat_iff _ _).2 hm, if_true]
          constructor
          · exact Or.inl
          · rintro (h1 | h1)
            · exact h1
            · rw [h1]; exact hm
        · have hc : st.2.contains (vocabIndex vocab w) = false := by
            simpa [List.contains] using hm
          simp only [hc, Bool.false_eq_true, if_false, List.mem_append, List.mem_singleton]
      obtain ⟨hn', hmem'⟩ := ih st₁ st' h hn₁
      refine ⟨hn', ?_⟩
      intro idx
      rw [hmem' idx, hmem₁ idx]
      simp only [List.mem_cons, exists_eq_or_imp]
      constructor
      · rintro ((h1 | h1) | h1)
        · exact Or.inl h1
        · exact Or.inr (Or.inl h1.symm)
        · exact Or.inr (Or.inr h1)
      · rintro (h1 | h1 | h1)
        · exact Or.inl (Or.inl h1)
        · exact Or.inl (Or.inr h1.symm)
        · exact Or.inr h1

theorem countFold_counts {α : Type} [LinearOrderedField α] (vocab : Vocab)
    (sent : List GoString) :
    ∀ st st' : List α × List Nat, sent.foldlM (countStep vocab) st = some st' →
      ∀ (j : Nat) (x : α), st.1[j]? = some x →
        st'.1[j]? = some (x + ((sent.countP (fun w => vocabIndex vocab w == j) : Nat) : α)) := by
  induction sent with
  | nil =>
    intro st st' h j x hx
    simp only [List.foldlM_nil, Option.pure_def, Option.some.injEq] at h
    subst h
    simp [hx]
  | cons w ws ih =>
    intro st st' h j x hx
    simp only [List.foldlM_cons, Option.bind_eq_bind] at h
    cases hc : countStep vocab st w with
    | none => simp [hc] at h
    | some st₁ =>
      simp only [hc, Option.some_bind] at h
      obtain ⟨y, hy, hst₁⟩ := countStep_eq vocab st st₁ w hc
      have hj : st₁.1[j]? = some (x + if vocabIndex vocab w == j then 1 else 0) := by
        rw [hst₁]
        simp only [List.getElem?_set]
        by_cases he : vocabIndex vocab w = j
        · subst he
          rw [hy] at hx
          cases hx
          have hlt : vocabIndex vocab w < st.1.length := by
            obtain ⟨hlt, _⟩ := List.getElem?_eq_some_iff.1 hy
            exact hlt
          simp [hlt]
        · simp [he, hx]
      rw [ih st₁ st' h j _ hj, List.countP_cons]
      by_cases he : vocabIndex vocab w = j
      · simp [he]; ring
      · simp [he]

theorem dfIncr_foldl (seen : List Nat) :
    ∀ (df : Nat → Nat) (j : Nat), (seen.foldl dfIncr df) j = df j + seen.count j := by
  induction seen with
  | nil => intro df j; simp
  | cons a seen ih =>
    intro df j
    rw [List.foldl_cons, ih, List.count_cons]
    unfold dfIncr
    by_cases h : j = a
    · subst h; simp; omega
    · have h' : ¬ a = j := fun e => h e.symm
      simp [h, h']

theorem countUnit_seen_count {α : Type} [LinearOrderedField α] (vocab : Vocab)
    (sent : List GoString) (vec : List α) (seen : List Nat)
    (h : countUnit vocab sent = some (vec, seen)) (j : Nat) :
    seen.count j = if sent.any (fun w => vocabIndex vocab w == j) then 1 else 0 := by
  obtain ⟨hn, hm⟩ := countFold_seen vocab sent _ _ h List.nodup_nil
  simp only [List.not_mem_nil, false_or] at hm
  by_cases hj : j ∈ seen
  · rw [List.count_eq_one_of_mem hn hj, if_pos]
    obtain ⟨w, hw, he⟩ := (hm j).1 hj
    exact List.any_eq_true.2 ⟨w, hw, by simpa using he⟩
  · rw [List.count_eq_zero_of_not_mem hj, if_neg]
    intro ha
    obtain ⟨w, hw, he⟩ := List.any_eq_true.1 ha
    exact hj ((hm j).2 ⟨w, hw, by simpa using he⟩)

theorem indexLoop_df {α : Type} [LinearOrderedField α] (vocab : Vocab)
    (sentences : List (List GoString)) :
    ∀ st st' : List (List α) × (Nat → Nat),
      sentences.foldlM (indexStep vocab) st = some st' →
      ∀ j, st'.2 j = st.2 j
        + sentences.countP (fun sent => sent.any (fun w => vocabIndex vocab w == j)) := by
  induction sentences with
  | nil =>
    intro st st' h j
    simp only [List.foldlM_nil, Option.pure_def, Option.some.injEq] at h
    subst h
    simp
  | cons sent sentences ih =>
    intro st st' h j
    simp only [List.foldlM_cons, Option.bind_eq_bind, indexStep] at h
    cases hc : countUnit (α := α) vocab sent with
    | none => simp [hc] at h
    | some p =>
      obtain ⟨vec, seen⟩ := p
      simp only [hc, Option.some_bind] at h
      have hrec := ih _ st' h j
      simp only at hrec
      rw [hrec, dfIncr_foldl, countUnit_seen_count vocab sent vec seen hc j,
        List.countP_cons]
      simp only [add_assoc]
      congr 1
      rw [add_comm]

/-- The index built by `tfidf`, with the run of its second loop. -/
theorem tfidf_run {α : Type} [LinearOrderedField α] (log sqrt : α → α)
    (sentences : List (List GoString)) :
    ∃ raws df,
      sentences.foldlM (indexStep (buildVocab sentences)) (([] : List (List α)), fun _ => 0)
        = some (raws, df) ∧
      tfidf log sqrt sentences
        = some (raws.map (fun vec => normalize sqrt (weightFrom log sentences.length df 0 vec)),
            buildVocab sentences, df) ∧
      List.Forall₂ (RawCount (buildVocab sentences)) sentences raws := by
  obtain ⟨raws, df, hf, hall⟩ := indexLoop_some (α := α) (buildVocab sentences)
    (buildVocab_ok sentences) sentences (buildVocab_known sentences) ([], fun _ => 0)
  simp only [List.nil_append] at hf
  refine ⟨raws, df, hf, ?_, hall⟩
  unfold tfidf
  simp only [hf]

/-- C11: for every vocabulary entry `(w, j)`, `df[j]` is the number of units in
which `w` occurs at least once; no other key of `df` is ever incremented. -/
theorem document_frequency_counts_units (sentences : List (List GoString)) :
    ∃ vectors vocab df, tfidf Real.log Real.sqrt sentences = some (vectors, vocab, df) ∧
      (∀ w j, vocab.lookup w = some j →
        df j = sentences.countP (fun sent => decide (w ∈ sent))) ∧
      (∀ j, vocab.length ≤ j → df j = 0) := by
  obtain ⟨raws, df, hf, hs, _⟩ := tfidf_run Real.log Real.sqrt sentences
  have hok := buildVocab_ok sentences
  have hdf := indexLoop_df (buildVocab sentences) sentences _ _ hf
  simp only [zero_add] at hdf
  refine ⟨_, _, df, hs, ?_, ?_⟩
  · intro w j hw
    rw [hdf j]
    apply List.countP_congr
    intro sent hsent
    simp only [List.any_eq_true, beq_iff_eq, decide_eq_true_eq]
    constructor
    · rintro ⟨w', hw', he⟩
      obtain ⟨i, hi⟩ := Option.isSome_iff_exists.1 (buildVocab_known sentences sent hsent w' hw')
      have hij : i = j := by rw [← he]; simp [vocabIndex, hi]
      rw [hij] at hi
      rw [← lookup_inj _ hok w' w j hi hw]
      exact hw'
    · intro hmem
      exact ⟨w, hmem, by simp [vocabIndex, hw]⟩
  · intro j hj
    rw [hdf j]
    apply Nat.eq_zero_of_not_pos
    intro hpos
    obtain ⟨sent, hsent, ha⟩ := List.countP_pos_iff.1 hpos
    obtain ⟨w, hw, he⟩ := List.any_eq_true.1 ha
    have hlt := vocabIndex_lt _ hok w (buildVocab_known sentences sent hsent w hw)
    have : vocabIndex (buildVocab sentences) w = j := by simpa using he
    omega


/-! ## Zero vectors -/

theorem weightFrom_getElem?_eq {α : Type} [LinearOrderedField α] (log : α → α) (n : Nat)
    (df : Nat → Nat) (v : List α) :
    ∀ (s j : Nat), (weightFrom log n df s v)[j]?
      = (v[j]?).map (fun x => if 0 < x then x * idf log n df (s + j) else x) := by
  induction v with
  | nil => intro s j; simp [weightFrom]
  | cons x v ih =>
    intro s j
    cases j with
    | zero => simp [weightFrom]
    | succ j =>
      simp only [weightFrom, List.getElem?_cons_succ, ih (s + 1) j]
      congr 1
      funext y
      congr 3
      omega

theorem rawCount_slot {α : Type} [LinearOrderedField α] (vocab : Vocab) (sent : List GoString)
    (raw : List α) (h : RawCount vocab sent raw) (j : Nat) (hj : j < vocab.length) :
    raw[j]? = some ((sent.countP (fun w => vocabIndex vocab w == j) : Nat) : α) := by
  obtain ⟨seen, hs⟩ := h
  have := countFold_counts vocab sent _ _ hs j 0 (by simp [hj])
  simpa using this

theorem normalize_zero_iff (v : List ℝ) :
    (∀ y ∈ normalize Real.sqrt v, y = 0) ↔ ∀ y ∈ v, y = 0 := by
  simp only [normalize]
  split_ifs with hz
  · exact Iff.rfl
  · constructor
    · intro h y hy
      have := h (y / Real.sqrt (sumSquares v)) (List.mem_map.2 ⟨y, hy, rfl⟩)
      rcases div_eq_zero_iff.1 this with h1 | h1
      · exact h1
      · exact absurd h1 hz
    · intro h y hy
      obtain ⟨x, hx, rfl⟩ := List.mem_map.1 hy
      rw [h x hx, zero_div]

theorem idf_eq_zero_iff (n : Nat) (df : Nat → Nat) (j : Nat) (hn : 0 < n) :
    idf Real.log n df j = 0 ↔ 1 + df j = n := by
  unfold idf
  have hpos : (0 : ℝ) < ((1 + df j : Nat) : ℝ) := by
    exact_mod_cast (by omega : 0 < 1 + df j)
  have hn' : (0 : ℝ) < (n : ℝ) := by exact_mod_cast hn
  have hq : (0 : ℝ) < (n : ℝ) / ((1 + df j : Nat) : ℝ) := div_pos hn' hpos
  constructor
  · intro h
    rcases Real.log_eq_zero.1 h with h1 | h1 | h1
    · exact absurd h1 hq.ne'
    · rw [div_eq_one_iff_eq hpos.ne'] at h1
      exact_mod_cast h1.symm
    · rw [h1] at hq
      exact absurd hq (by norm_num)
  · intro h
    rw [← h, div_self hpos.ne', Real.log_one]

/-- The weighted vector of a unit is all zero exactly when every term of the unit
has the factor 0. -/
theorem weighted_zero_iff (vocab : Vocab) (hv : VocabOK vocab) (sent : List GoString)
    (hk : Known vocab sent) (raw : List ℝ) (hr : RawCount vocab sent raw)
    (n : Nat) (df : Nat → Nat) :
    (∀ y ∈ weightFrom Real.log n df 0 raw, y = 0) ↔
      ∀ w ∈ sent, idf Real.log n df (vocabIndex vocab w) = 0 := by
  obtain ⟨hlen, hnn⟩ := rawCount_inv vocab hv sent hk raw hr
  constructor
  · intro h w hw
    have hj := vocabIndex_lt vocab hv w (hk w hw)
    have hslot := rawCount_slot vocab sent raw hr _ hj
    have hcpos : 0 < sent.countP (fun w' => vocabIndex vocab w' == vocabIndex vocab w) :=
      List.countP_pos_iff.2 ⟨w, hw, by simp⟩
    have hc : (0 : ℝ) < ((sent.countP
        (fun w' => vocabIndex vocab w' == vocabIndex vocab w) : Nat) : ℝ) := by
      exact_mod_cast hcpos
    have hW := weightFrom_getElem?_eq Real.log n df raw 0 (vocabIndex vocab w)
    rw [hslot, Option.map_some', if_pos hc, zero_add] at hW
    have h0 := h _ (List.getElem?_mem hW)
    rcases mul_eq_zero.1 h0 with h1 | h1
    · exact absurd h1 hc.ne'
    · exact h1
  · intro h y hy
    obtain ⟨j, hjy⟩ := List.mem_iff_getElem?.1 hy
    obtain ⟨x, hx, rfl⟩ := weightFrom_getElem? Real.log n df raw 0 j y hjy
    have hx0 := hnn x (List.getElem?_mem hx)
    split_ifs with hpos
    · have hjlt : j < vocab.length := by
        rw [← hlen]
        exact (List.getElem?_eq_some_iff.1 hx).1
      have hslot := rawCount_slot vocab sent raw hr j hjlt
      rw [hx] at hslot
      have hxe := Option.some.inj hslot
      rw [hxe] at hpos
      have hcpos : 0 < sent.countP (fun w' => vocabIndex vocab w' == j) := by
        exact_mod_cast hpos
      obtain ⟨w, hw, he⟩ := List.countP_pos_iff.1 hcpos
      have hwj : vocabIndex vocab w = j := by simpa using he
      rw [zero_add, ← hwj, h w hw, mul_zero]
    · exact le_antisymm (not_lt.1 hpos) hx0

/-- C17 (as stated, refuted): the units `["casa"]` and `["roja"]` are not empty,
yet both get the all-zero vector: every term has `df = 1 = N - 1`, factor
`ln(2/2) = 0`. -/
theorem nonempty_units_zero_vectors :
    ∃ vocab df, tfidf Real.log Real.sqrt [["casa".toList], ["roja".toList]]
      = some ([[0, 0], [0, 0]], vocab, df) := by
  have h : tfidf Real.log Real.sqrt [["casa".toList], ["roja".toList]]
      = some ([normalize Real.sqrt (weightFrom Real.log 2
            (dfIncr (dfIncr (fun _ => 0) 0) 1) 0 [0 + 1, 0]),
          normalize Real.sqrt (weightFrom Real.log 2
            (dfIncr (dfIncr (fun _ => 0) 0) 1) 0 [0, 0 + 1])],
          [("casa".toList, 0), ("roja".toList, 1)], dfIncr (dfIncr (fun _ => 0) 0) 1) := by
    rfl
  refine ⟨[("casa".toList, 0), ("roja".toList, 1)], dfIncr (dfIncr (fun _ => 0) 0) 1,
    h.trans ?_⟩
  have hw₁ : weightFrom Real.log 2 (dfIncr (dfIncr (fun _ => 0) 0) 1) 0 [(0 : ℝ) + 1, 0]
      = [0, 0] := by
    simp [weightFrom, idf, dfIncr]
  have hw₂ : weightFrom Real.log 2 (dfIncr (dfIncr (fun _ => 0) 0) 1) 0 [(0 : ℝ), 0 + 1]
      = [0, 0] := by
    simp [weightFrom, idf, dfIncr]
  have hn : normalize Real.sqrt [(0 : ℝ), 0] = [0, 0] := normalize_zeros Real.sqrt 2
  rw [hw₁, hw₂, hn]

/-- C17 (as amended): the vector of unit `k` is all zero if and only if every
token of the unit has `1 + df = N` (factor `ln 1 = 0`), in particular when the
unit has no token; every other unit gets a vector of norm 1. -/
theorem zero_vector_iff (sentences : List (List GoString)) (k : Nat)
    (hk : k < sentences.length) :
    ∃ vectors vocab df v,
      tfidf Real.log Real.sqrt sentences = some (vectors, vocab, df) ∧
      vectors[k]? = some v ∧
      ((∀ x ∈ v, x = 0) ↔
        ∀ w ∈ sentences[k], 1 + df (vocabIndex vocab w) = sentences.length) ∧
      ((∃ x ∈ v, x ≠ 0) → Real.sqrt (sumSquares v) = 1) ∧
      (sentences[k] = [] → ∀ x ∈ v, x = 0) := by
  obtain ⟨raws, df, hs, hall⟩ := tfidf_spec Real.log Real.sqrt sentences
  obtain ⟨raw, hraw, hrc⟩ := forall₂_getElem? _ _ _ hall k sentences[k]
    (List.getElem?_eq_getElem hk)
  have hok := buildVocab_ok sentences
  have hkn := buildVocab_known sentences sentences[k] (List.getElem_mem _)
  have hiff : (∀ x ∈ normalize Real.sqrt (weightFrom Real.log sentences.length df 0 raw), x = 0)
      ↔ ∀ w ∈ sentences[k], 1 + df (vocabIndex (buildVocab sentences) w) = sentences.length := by
    rw [normalize_zero_iff, weighted_zero_iff _ hok _ hkn raw hrc]
    constructor
    · intro h w hw
      exact (idf_eq_zero_iff _ _ _ (by omega)).1 (h w hw)
    · intro h w hw
      exact (idf_eq_zero_iff _ _ _ (by omega)).2 (h w hw)
  refine ⟨_, _, df, _, hs, by simp [hraw], hiff, ?_, ?_⟩
  · rintro ⟨x, hx, hx0⟩
    rcases normalize_unit_or_zero (weightFrom Real.log sentences.length df 0 raw) with h | h
    · exact h
    · exact absurd (h x hx) hx0
  · intro he
    rw [hiff, he]
    intro w hw
    simp at hw

/-- Witness of `zero_vector_iff` on two units. -/
theorem zero_vector_iff_witness :
    0 < [["casa".toList, "roja".toList], ["casa".toList]].length ∧
    ∃ vectors vocab df v,
      tfidf Real.log Real.sqrt [["casa".toList, "roja".toList], ["casa".toList]]
        = some (vectors, vocab, df) ∧
      vectors[0]? = some v ∧
      ((∀ x ∈ v, x = 0) ↔
        ∀ w ∈ [["casa".toList, "roja".toList], ["casa".toList]].get ⟨0, by decide⟩,
          1 + df (vocabIndex vocab w)
            = [["casa".toList, "roja".toList], ["casa".toList]].length) ∧
      ((∃ x ∈ v, x ≠ 0) → Real.sqrt (sumSquares v) = 1) ∧
      ([["casa".toList, "roja".toList], ["casa".toList]].get ⟨0, by decide⟩ = [] →
        ∀ x ∈ v, x = 0) :=
  ⟨by decide,
    zero_vector_iff [["casa".toList, "roja".toList], ["casa".toList]] 0 (by decide)⟩


/-! ## The scores in float64 -/

/-- C4 (as stated, refuted): in float64 the query with the tokens of unit 0 scores
`1` against unit 0 and `1 + 2^-52` (1.0000000000000002) against unit 1, whose
vector differs from that of unit 0 in the last bit. -/
theorem float64_query_of_unit_outscored :
    scores64 [["casa".toList, "roja".toList],
        ["casa".toList, "casa".toList, "casa".toList,
          "roja".toList, "roja".toList, "roja".toList]]
      ["casa".toList, "roja".toList] = some [1, 1 + 1 / 2 ^ 52] ∧
    ¬ ((1 : ℚ) + 1 / 2 ^ 52 ≤ 1) := by
  constructor
  · decide!
  · norm_num

end QA
